import Mathlib

/-!
# Studymate: the generation pipeline of `controllers/aiController.js`

A shallow embedding of the backend controller: text normalisation
(`cleanInputText`), tolerant JSON recovery (`parseJSONSafe`), the remote call
(`callGemini`), the bounded retry loop (`callGeminiWithRetry`) and the two
request handlers (`generateNoteFromText`, `generateQuiz`).

JavaScript strings are modelled as their sequence of UTF-16 code units, so a
regular expression without the `u` flag sees exactly the elements of the list.
-/

namespace Studymate

/-! ## Strings -/

/-- A JavaScript string, as the list of its UTF-16 code units. -/
abbrev JSString := List Nat

/-- The code units of a string literal whose characters all lie in the basic plane. -/
def lit (s : String) : JSString := s.toList.map Char.toNat

/-- The regular-expression class `\s`, which is also the set `String.prototype.trim`
removes: the ECMAScript WhiteSpace and LineTerminator code points. -/
def isWhiteSpace (c : Nat) : Bool :=
  c == 9 || c == 10 || c == 11 || c == 12 || c == 13 || c == 32 || c == 160 ||
  c == 5760 || (8192 ≤ c && c ≤ 8202) || c == 8232 || c == 8233 || c == 8239 ||
  c == 8287 || c == 12288 || c == 65279

/-- `String.prototype.replace` with a global regular expression none of whose
matches is empty. `matchAt s` says whether the expression matches at the head
of `s`, and if so how many code units the match spans and what replaces it.
The scan goes left to right; the counter is the number of code units of the
current match still to be skipped. -/
def replaceGlobal (matchAt : JSString → Option (Nat × JSString)) :
    Nat → JSString → JSString
  | _, [] => []
  | k + 1, _ :: rest => replaceGlobal matchAt k rest
  | 0, c :: rest =>
    match matchAt (c :: rest) with
    | some (n + 1, repl) => repl ++ replaceGlobal matchAt n rest
    | _ => c :: replaceGlobal matchAt 0 rest

/-- `String.prototype.trim`. -/
def trim (s : JSString) : JSString :=
  ((s.dropWhile isWhiteSpace).reverse.dropWhile isWhiteSpace).reverse

/-! ## 1) `cleanInputText` -/

/-- The expression `/\u0000/` at the head of `s`, replaced by the empty string. -/
def nulAt : JSString → Option (Nat × JSString)
  | c :: _ => if c = 0 then some (1, []) else none
  | [] => none

/-- The expression `/<[^>]*>/` at the head of `s`, replaced by the empty string:
a `<`, then everything up to and including the first `>` after it. -/
def tagAt : JSString → Option (Nat × JSString)
  | c :: rest =>
    if c = 60 ∧ 62 ∈ rest then some ((rest.takeWhile (fun d => d != 62)).length + 2, [])
    else none
  | [] => none

/-- The expression `/\s{2,}/` at the head of `s`, replaced by one space: the
whole run of white space starting there, when it has at least two members. -/
def spacesAt : JSString → Option (Nat × JSString)
  | c :: d :: rest =>
    if isWhiteSpace c ∧ isWhiteSpace d then
      some ((rest.takeWhile isWhiteSpace).length + 2, [32])
    else none
  | _ => none

/-- The function `cleanInputText(text)`. The argument is `none` for `undefined`
or `null`; these and the empty string are falsy and give the empty string. -/
def cleanInputText : Option JSString → JSString
  | none => []
  | some [] => []
  | some text =>
    trim (replaceGlobal spacesAt 0 (replaceGlobal tagAt 0 (replaceGlobal nulAt 0 text)))

/-! ### Shapes of a normalised text -/

/-- Some `<` of `s` has a `>` somewhere after it. -/
def ltGt : JSString → Bool
  | [] => false
  | c :: rest => (c == 60 && rest.contains 62) || ltGt rest

/-- Two neighbouring code units of `s` are both white space. -/
def adjWs : JSString → Bool
  | a :: b :: rest => (isWhiteSpace a && isWhiteSpace b) || adjWs (b :: rest)
  | _ => false

/-- The angle brackets `<` and `>`. -/
def isAngle (c : Nat) : Bool := c == 60 || c == 62

/-- The first code unit of `s`, if any, is not white space. -/
def headNotWs (s : JSString) : Prop := ∀ d r, s = d :: r → isWhiteSpace d = false

/-! ## Values -/

/-- A JavaScript number: a finite IEEE 754 double `(-1)^neg * m * 2^e`, kept with
`m` odd (or `m = 0`, `e = 0`) so that equal doubles are equal terms, an infinity,
or NaN. -/
inductive JSNumber
  | finite (neg : Bool) (m : Nat) (e : Int)
  | infinite (neg : Bool)
  | nan
  deriving DecidableEq

/-- A JavaScript value of the kinds this program handles. An object is the list
of its own properties in the order of their creation; nothing here reads that
order, only the value under a key. -/
inductive JSValue
  | undefined
  | null
  | bool (b : Bool)
  | num (n : JSNumber)
  | str (s : JSString)
  | arr (items : List JSValue)
  | obj (props : List (JSString × JSValue))

/-- The exceptions a call can raise: a failed remote call, or a `TypeError`
raised by the language runtime. -/
inductive JSError
  | transport
  | typeError
  deriving DecidableEq

/-- The abstract operation `ToBoolean`: what `if (v)`, `!v` and `v || w` test. -/
def truthy : JSValue → Bool
  | .undefined => false
  | .null => false
  | .bool b => b
  | .num (.finite _ m _) => m != 0
  | .num (.infinite _) => true
  | .num .nan => false
  | .str s => !s.isEmpty
  | .arr _ => true
  | .obj _ => true

/-- The `typeof` operator. -/
def typeOf : JSValue → JSString
  | .undefined => lit "undefined"
  | .null => lit "object"
  | .bool _ => lit "boolean"
  | .num _ => lit "number"
  | .str _ => lit "string"
  | .arr _ => lit "object"
  | .obj _ => lit "object"

/-- The function `Array.isArray`. -/
def isArray : JSValue → Bool
  | .arr _ => true
  | _ => false

/-- The value is an object that is not an array. -/
def isPlainObject : JSValue → Bool
  | .obj _ => true
  | _ => false

/-- The value is a string, a number or a boolean. -/
def isScalar : JSValue → Bool
  | .bool _ => true
  | .num _ => true
  | .str _ => true
  | _ => false

/-! ## Double-precision arithmetic -/

/-- Strip the factors two of a mantissa, raising the exponent, at most `fuel`
times; a mantissa below `2^54` has fewer than 54 of them. -/
def stripTwos : Nat → Nat → Int → Nat × Int
  | 0, m, e => (m, e)
  | fuel + 1, m, e =>
    if m ≠ 0 ∧ m % 2 = 0 then stripTwos fuel (m / 2) (e + 1) else (m, e)

/-- The number of binary digits of `n`, halving at most `fuel` times; `n`
itself is fuel enough. -/
def bitLength : Nat → Nat → Nat
  | 0, _ => 0
  | fuel + 1, n => if n = 0 then 0 else bitLength fuel (n / 2) + 1

/-- The integer `l` with `2^l ≤ num / den < 2^(l+1)`, for positive `num` and `den`. -/
def floorLog2 (num den : Nat) : Int :=
  let l0 : Int := (bitLength num num : Int) - (bitLength den den : Int)
  if den * 2 ^ l0.toNat ≤ num * 2 ^ (-l0).toNat then l0 else l0 - 1

/-- The double nearest the non-negative rational `num / den` (ties to the even
mantissa), with sign `neg`: 53 significant bits, the quantum never below
`2^-1074`, and an infinity when the rounded value reaches `2^1024`. -/
def roundToDouble (neg : Bool) (num den : Nat) : JSNumber :=
  if num = 0 then .finite neg 0 0
  else
    let q : Int := max (floorLog2 num den - 52) (-1074)
    let n := num * 2 ^ (-q).toNat
    let d := den * 2 ^ q.toNat
    let m0 := n / d
    let r := n % d
    let m := if d < 2 * r ∨ (2 * r = d ∧ m0 % 2 = 1) then m0 + 1 else m0
    if 971 < q ∨ (q = 971 ∧ m = 2 ^ 53) then .infinite neg
    else if m = 0 then .finite neg 0 0
    else .finite neg (stripTwos 64 m q).1 (stripTwos 64 m q).2

/-- The double of a natural number (exact below `2^53`). -/
def JSNumber.ofNat (n : Nat) : JSNumber := roundToDouble false n 1

/-- The operator `*` on numbers. -/
def JSNumber.mul : JSNumber → JSNumber → JSNumber
  | .finite s m e, .finite t n f =>
    roundToDouble (s != t) (m * n * 2 ^ (e + f).toNat) (2 ^ (-(e + f)).toNat)
  | .finite s m _, .infinite t => if m = 0 then .nan else .infinite (s != t)
  | .infinite s, .finite t n _ => if n = 0 then .nan else .infinite (s != t)
  | .infinite s, .infinite t => .infinite (s != t)
  | _, _ => .nan

/-- The operator `/` on numbers. -/
def JSNumber.div : JSNumber → JSNumber → JSNumber
  | .finite s m e, .finite t n f =>
    if n = 0 then (if m = 0 then .nan else .infinite (s != t))
    else
      roundToDouble (s != t) (m * 2 ^ (e - f).toNat) (n * 2 ^ (f - e).toNat)
  | .finite s _ _, .infinite t => .finite (s != t) 0 0
  | .infinite s, .finite t _ _ => .infinite (s != t)
  | _, _ => .nan

/-- The function `Math.floor`. -/
def JSNumber.floor : JSNumber → JSNumber
  | .finite s m e =>
    if 0 ≤ e then .finite s m e
    else if s then roundToDouble true (m / 2 ^ (-e).toNat + 1) 1
    else roundToDouble false (m / 2 ^ (-e).toNat) 1
  | x => x

/-- The comparison `a < b` on numbers, false when either is NaN. -/
def JSNumber.lt : JSNumber → JSNumber → Bool
  | .nan, _ => false
  | _, .nan => false
  | .infinite s, .infinite t => s && !t
  | .infinite s, .finite _ _ _ => s
  | .finite _ _ _, .infinite t => !t
  | .finite s m e, .finite t n f =>
    let a := m * 2 ^ (e - f).toNat
    let b := n * 2 ^ (f - e).toNat
    match s, t with
    | false, false => decide (a < b)
    | true, true => decide (b < a)
    | true, false => decide (0 < a ∨ 0 < b)
    | false, true => false

/-- The function `Math.max` of two numbers (a NaN argument gives NaN; of the
two zeros the positive one is the larger). -/
def JSNumber.max (a b : JSNumber) : JSNumber :=
  if a = .nan ∨ b = .nan then .nan
  else if JSNumber.lt a b then b
  else if JSNumber.lt b a then a
  else if a = .finite true 0 0 then b else a

/-! ## `JSON.parse`

The runtime's strict parser, as the JSON grammar of ECMA-404 run over the code
units: a lexer that is a state machine over code units, feeding a pushdown
machine over tokens. A result of `none` is the `SyntaxError` the call throws. -/

/-- The tokens of JSON; a scalar token carries its value. -/
inductive Token
  | lbrace
  | rbrace
  | lbracket
  | rbracket
  | colon
  | comma
  | scalar (v : JSValue)

/-- Where the lexer stands inside a number literal. -/
inductive NumPhase
  | minus
  | zero
  | int
  | dot
  | frac
  | e
  | esign
  | exp
  deriving DecidableEq

/-- What the lexer has read of a number literal: the sign, the digits of the
integer and fraction parts as one natural number, how many of them are fraction
digits, and the sign and digits of the exponent. -/
structure NumAcc where
  neg : Bool
  mant : Nat
  fracLen : Nat
  expNeg : Bool
  expVal : Nat
  deriving DecidableEq

/-- The state of the lexer between two code units: between tokens, inside a
string (with the code units read so far), after a backslash, inside a `\u`
escape (with the number of digits read and their value), inside one of the
words `true`, `false`, `null` (with the code units still expected and the value
of the word), or inside a number. -/
inductive LexState
  | start
  | str (acc : JSString)
  | esc (acc : JSString)
  | hex (acc : JSString) (n : Nat) (v : Nat)
  | word (rest : JSString) (v : JSValue)
  | num (phase : NumPhase) (acc : NumAcc)

/-- The number a literal denotes: the double nearest its decimal value. -/
def NumAcc.value (a : NumAcc) : JSNumber :=
  let scale : Int := (if a.expNeg then -(a.expVal : Int) else (a.expVal : Int)) - a.fracLen
  if 0 ≤ scale then roundToDouble a.neg (a.mant * 10 ^ scale.toNat) 1
  else roundToDouble a.neg a.mant (10 ^ (-scale).toNat)

/-- JSON white space: tab, line feed, carriage return, space. -/
def isJsonWs (c : Nat) : Bool := c == 9 || c == 10 || c == 13 || c == 32

/-- A decimal digit. -/
def isDigit (c : Nat) : Bool := 48 ≤ c && c ≤ 57

/-- The value of a hexadecimal digit. -/
def hexVal (c : Nat) : Option Nat :=
  if 48 ≤ c ∧ c ≤ 57 then some (c - 48)
  else if 65 ≤ c ∧ c ≤ 70 then some (c - 55)
  else if 97 ≤ c ∧ c ≤ 102 then some (c - 87)
  else none

/-- The lexer's step from the state between tokens. -/
def lexStart (c : Nat) : Option (LexState × List Token) :=
  if isJsonWs c then some (.start, [])
  else if c = 123 then some (.start, [.lbrace])
  else if c = 125 then some (.start, [.rbrace])
  else if c = 91 then some (.start, [.lbracket])
  else if c = 93 then some (.start, [.rbracket])
  else if c = 58 then some (.start, [.colon])
  else if c = 44 then some (.start, [.comma])
  else if c = 34 then some (.str [], [])
  else if c = 45 then some (.num .minus ⟨true, 0, 0, false, 0⟩, [])
  else if c = 48 then some (.num .zero ⟨false, 0, 0, false, 0⟩, [])
  else if isDigit c then some (.num .int ⟨false, c - 48, 0, false, 0⟩, [])
  else if c = 116 then some (.word [114, 117, 101] (.bool true), [])
  else if c = 102 then some (.word [97, 108, 115, 101] (.bool false), [])
  else if c = 110 then some (.word [117, 108, 108] .null, [])
  else none

/-- A number literal ends before `c`: its token, then `c` read between tokens. -/
def lexNumEnd (a : NumAcc) (c : Nat) : Option (LexState × List Token) :=
  match lexStart c with
  | some (st, toks) => some (st, .scalar (.num a.value) :: toks)
  | none => none

/-- The lexer's step inside a number literal. -/
def lexNum (phase : NumPhase) (a : NumAcc) (c : Nat) : Option (LexState × List Token) :=
  match phase with
  | .minus =>
    if c = 48 then some (.num .zero a, [])
    else if isDigit c then some (.num .int { a with mant := c - 48 }, [])
    else none
  | .zero =>
    if c = 46 then some (.num .dot a, [])
    else if c = 101 ∨ c = 69 then some (.num .e a, [])
    else if isDigit c then none
    else lexNumEnd a c
  | .int =>
    if isDigit c then some (.num .int { a with mant := a.mant * 10 + (c - 48) }, [])
    else if c = 46 then some (.num .dot a, [])
    else if c = 101 ∨ c = 69 then some (.num .e a, [])
    else lexNumEnd a c
  | .dot =>
    if isDigit c then
      some (.num .frac { a with mant := a.mant * 10 + (c - 48), fracLen := a.fracLen + 1 }, [])
    else none
  | .frac =>
    if isDigit c then
      some (.num .frac { a with mant := a.mant * 10 + (c - 48), fracLen := a.fracLen + 1 }, [])
    else if c = 101 ∨ c = 69 then some (.num .e a, [])
    else lexNumEnd a c
  | .e =>
    if c = 43 then some (.num .esign a, [])
    else if c = 45 then some (.num .esign { a with expNeg := true }, [])
    else if isDigit c then some (.num .exp { a with expVal := c - 48 }, [])
    else none
  | .esign =>
    if isDigit c then some (.num .exp { a with expVal := c - 48 }, [])
    else none
  | .exp =>
    if isDigit c then some (.num .exp { a with expVal := a.expVal * 10 + (c - 48) }, [])
    else lexNumEnd a c

/-- One step of the lexer: the next state and the tokens completed by `c`. -/
def lexStep (st : LexState) (c : Nat) : Option (LexState × List Token) :=
  match st with
  | .start => lexStart c
  | .str acc =>
    if c = 34 then some (.start, [.scalar (.str acc)])
    else if c = 92 then some (.esc acc, [])
    else if c < 32 then none
    else some (.str (acc ++ [c]), [])
  | .esc acc =>
    if c = 34 ∨ c = 92 ∨ c = 47 then some (.str (acc ++ [c]), [])
    else if c = 98 then some (.str (acc ++ [8]), [])
    else if c = 102 then some (.str (acc ++ [12]), [])
    else if c = 110 then some (.str (acc ++ [10]), [])
    else if c = 114 then some (.str (acc ++ [13]), [])
    else if c = 116 then some (.str (acc ++ [9]), [])
    else if c = 117 then some (.hex acc 0 0, [])
    else none
  | .hex acc n v =>
    match hexVal c with
    | some d =>
      if n = 3 then some (.str (acc ++ [v * 16 + d]), [])
      else some (.hex acc (n + 1) (v * 16 + d), [])
    | none => none
  | .word rest v =>
    match rest with
    | [] => none
    | x :: more =>
      if c = x then (if more = [] then some (.start, [.scalar v]) else some (.word more v, []))
      else none
  | .num phase a => lexNum phase a c

/-- The tokens the end of the text completes, if the text may end here. -/
def lexEnd : LexState → Option (List Token)
  | .start => some []
  | .num .zero a => some [.scalar (.num a.value)]
  | .num .int a => some [.scalar (.num a.value)]
  | .num .frac a => some [.scalar (.num a.value)]
  | .num .exp a => some [.scalar (.num a.value)]
  | _ => none

/-- A container under construction that awaits its next member. -/
inductive Frame
  | arr (items : List JSValue)
  | obj (props : List (JSString × JSValue)) (key : JSString)

/-- The state of the parser between two tokens. The list of frames is the stack
of the enclosing containers, innermost first. -/
inductive PState
  | value (stack : List Frame)
  | arrFirst (stack : List Frame)
  | inArr (items : List JSValue) (stack : List Frame)
  | objFirst (stack : List Frame)
  | objKey (props : List (JSString × JSValue)) (stack : List Frame)
  | objColon (props : List (JSString × JSValue)) (key : JSString) (stack : List Frame)
  | inObj (props : List (JSString × JSValue)) (stack : List Frame)
  | done (v : JSValue)

/-- Define the property `key` of an object: a key already present keeps its
place and takes the new value. -/
def setProp : List (JSString × JSValue) → JSString → JSValue → List (JSString × JSValue)
  | [], key, v => [(key, v)]
  | (k, w) :: rest, key, v =>
    if k = key then (k, v) :: rest else (k, w) :: setProp rest key v

/-- A value is complete: it goes into the innermost enclosing container, or is
the result. -/
def complete (v : JSValue) : List Frame → PState
  | [] => .done v
  | .arr items :: stack => .inArr (items ++ [v]) stack
  | .obj props key :: stack => .inObj (setProp props key v) stack

/-- One step of the parser. -/
def pstep (st : PState) (tok : Token) : Option PState :=
  match st, tok with
  | .value stack, .scalar v => some (complete v stack)
  | .value stack, .lbrace => some (.objFirst stack)
  | .value stack, .lbracket => some (.arrFirst stack)
  | .arrFirst stack, .rbracket => some (complete (.arr []) stack)
  | .arrFirst stack, .scalar v => some (complete v (.arr [] :: stack))
  | .arrFirst stack, .lbrace => some (.objFirst (.arr [] :: stack))
  | .arrFirst stack, .lbracket => some (.arrFirst (.arr [] :: stack))
  | .inArr items stack, .comma => some (.value (.arr items :: stack))
  | .inArr items stack, .rbracket => some (complete (.arr items) stack)
  | .objFirst stack, .rbrace => some (complete (.obj []) stack)
  | .objFirst stack, .scalar (.str k) => some (.objColon [] k stack)
  | .objKey props stack, .scalar (.str k) => some (.objColon props k stack)
  | .objColon props k stack, .colon => some (.value (.obj props k :: stack))
  | .inObj props stack, .comma => some (.objKey props stack)
  | .inObj props stack, .rbrace => some (complete (.obj props) stack)
  | _, _ => none

/-- Feed the parser the tokens one code unit completed. -/
def feed (p : PState) (toks : List Token) : Option PState := toks.foldlM pstep p

/-- One code unit through lexer and parser. -/
def jsonStep (st : LexState × PState) (c : Nat) : Option (LexState × PState) :=
  match lexStep st.1 c with
  | none => none
  | some (l, toks) =>
    match feed st.2 toks with
    | none => none
    | some p => some (l, p)

/-- The end of the text: the result, if the text is one complete JSON value. -/
def jsonEnd (st : LexState × PState) : Option JSValue :=
  match lexEnd st.1 with
  | none => none
  | some toks =>
    match feed st.2 toks with
    | some (.done v) => some v
    | _ => none

/-- The call `JSON.parse(text)` on a string; `none` when it throws. -/
def JSONparse (text : JSString) : Option JSValue :=
  match text.foldlM jsonStep (.start, .value []) with
  | none => none
  | some st => jsonEnd st

/-! ## 2) `parseJSONSafe` -/

/-- Everything of `s` up to and including its last `d`. -/
def upToLast (d : Nat) (s : JSString) : JSString :=
  (s.reverse.dropWhile (fun c => c != d)).reverse

/-- The expression `/(\{[\s\S]*\}|\[[\s\S]*\])/` at the head of `s`: a `{` and
everything up to the last `}` after it, or else a `[` and everything up to the
last `]` after it. -/
def spanAt : JSString → Option JSString
  | c :: rest =>
    if c = 123 ∧ 125 ∈ rest then some (c :: upToLast 125 rest)
    else if c = 91 ∧ 93 ∈ rest then some (c :: upToLast 93 rest)
    else none
  | [] => none

/-- The first capture of `raw.match(/(\{[\s\S]*\}|\[[\s\S]*\])/)`: the match at
the leftmost position that has one; `none` when `match` returns `null`. -/
def matchSpan : JSString → Option JSString
  | [] => none
  | c :: rest =>
    match spanAt (c :: rest) with
    | some m => some m
    | none => matchSpan rest

/-- The expression `/,\s*([}\]])/` at the head of `s`, replaced by `$1`: a
comma, any white space, and a closing brace or bracket, which is kept. -/
def commaAt : JSString → Option (Nat × JSString)
  | c :: rest =>
    if c = 44 then
      match rest.dropWhile isWhiteSpace with
      | d :: _ =>
        if d = 125 ∨ d = 93 then some ((rest.takeWhile isWhiteSpace).length + 2, [d])
        else none
      | [] => none
    else none
  | [] => none

/-- The function `parseJSONSafe(raw)` on a string; the result `null` is the
value `JSValue.null`. -/
def parseJSONSafe (raw : JSString) : JSValue :=
  if raw = [] then .null
  else
    match JSONparse raw with
    | some v => v
    | none =>
      match matchSpan raw with
      | none => .null
      | some m =>
        match JSONparse (replaceGlobal commaAt 0 m) with
        | some v => v
        | none => .null

/-! ## 3) `callGemini` -/

/-- What `fetch` and `response.text()` give for one request: a rejection (no
response was received), or a completed response with its HTTP status and body. -/
inductive Wire
  | failed
  | response (status : Nat) (body : JSString)
  deriving DecidableEq

/-- The own property `key` of an object, `undefined` when there is none. -/
def lookupProp : List (JSString × JSValue) → JSString → JSValue
  | [], _ => .undefined
  | (k, v) :: rest, key => if k = key then v else lookupProp rest key

/-- The access `v?.key` for a property name that no built-in prototype defines. -/
def getProp (v : JSValue) (key : JSString) : JSValue :=
  match v with
  | .obj props => lookupProp props key
  | _ => .undefined

/-- The access `v?.[0]`. -/
def getFirst (v : JSValue) : JSValue :=
  match v with
  | .arr (x :: _) => x
  | .str (c :: _) => .str [c]
  | .obj props => lookupProp props [48]
  | _ => .undefined

/-- The callback `p => p.text || ""`; reading a property of `null` throws. -/
def partText (p : JSValue) : Except JSError JSValue :=
  match p with
  | .null => .error .typeError
  | .undefined => .error .typeError
  | _ => if truthy (getProp p (lit "text")) then .ok (getProp p (lit "text")) else .ok (.str [])

/-- The call `parts.map(p => p.text || "")` on the elements of an array. -/
def mapParts : List JSValue → Except JSError (List JSValue)
  | [] => .ok []
  | p :: rest =>
    match partText p with
    | .error e => .error e
    | .ok v =>
      match mapParts rest with
      | .error e => .error e
      | .ok vs => .ok (v :: vs)

/-- The text of one element in `join("")`: a string as it is, any other value
through the runtime's `ToString`, given as `toStr` (`none` when it throws its
`TypeError`). -/
def joinText (toStr : JSValue → Option JSString) (v : JSValue) :
    Except JSError JSString :=
  match v with
  | .str s => .ok s
  | .undefined => .ok []
  | .null => .ok []
  | _ =>
    match toStr v with
    | some s => .ok s
    | none => .error .typeError

/-- The call `join("")` on the elements of an array. -/
def joinAll (toStr : JSValue → Option JSString) :
    List JSValue → Except JSError JSString
  | [] => .ok []
  | v :: rest =>
    match joinText toStr v with
    | .error e => .error e
    | .ok s =>
      match joinAll toStr rest with
      | .error e => .error e
      | .ok tail => .ok (s ++ tail)

/-- The expression of the markdown fences at the head of `s`, replaced by the
empty string: the seven code units of the opening fence with `json`, or else
three backquotes. -/
def fenceAt : JSString → Option (Nat × JSString)
  | 96 :: 96 :: 96 :: 106 :: 115 :: 111 :: 110 :: _ => some (7, [])
  | 96 :: 96 :: 96 :: _ => some (3, [])
  | _ => none

/-- The function `callGemini(prompt)`, given what the request of this call
brings back. The HTTP status of the response is never read. -/
def callGemini (toStr : JSValue → Option JSString) : Wire → Except JSError JSString
  | .failed => .error .transport
  | .response _ raw =>
    match JSONparse raw with
    | none => .ok raw
    | some parsed =>
      let parts := getProp (getProp (getFirst (getProp parsed (lit "candidates")))
        (lit "content")) (lit "parts")
      if !truthy parts then .ok raw
      else
        match parts with
        | .arr items =>
          match mapParts items with
          | .error e => .error e
          | .ok texts =>
            match joinAll toStr texts with
            | .error e => .error e
            | .ok text => .ok (trim (replaceGlobal fenceAt 0 text))
        | _ => .error .typeError

/-! ## 4) `callGeminiWithRetry` -/

/-- The loop of `callGeminiWithRetry`, with `remaining = retries - i` rounds to
go. `client i` is what the call of round `i` (counted from zero) brings back.
The result comes with the number of calls made. -/
def retryLoop (client : Nat → Except JSError JSString) :
    Nat → Nat → Except JSError JSValue × Nat
  | 0, i => (.ok .null, i)
  | remaining + 1, i =>
    match client i with
    | .error e => (.error e, i + 1)
    | .ok raw =>
      if truthy (parseJSONSafe raw) then (.ok (parseJSONSafe raw), i + 1)
      else retryLoop client remaining (i + 1)

/-- The function `callGeminiWithRetry(prompt, retries)`: the value returned (or
the exception raised), and the number of calls of `callGemini` made. -/
def callGeminiWithRetry (client : Nat → Except JSError JSString) (retries : Nat) :
    Except JSError JSValue × Nat :=
  retryLoop client retries 0

/-- A client that answers from a list of raw outputs, and with `last` once the
list is used up. -/
def scripted (outs : List JSString) (last : JSString) (i : Nat) : Except JSError JSString :=
  .ok (outs.getD i last)

/-! ## 5) `generateNoteFromText` -/

/-- The number of runs of white space in `s`; `prev` says whether the code unit
before `s` is white space. -/
def wsRuns : Bool → JSString → Nat
  | _, [] => 0
  | prev, c :: rest =>
    (if isWhiteSpace c ∧ prev = false then 1 else 0) + wsRuns (isWhiteSpace c) rest

/-- The length of `cleaned.split(/\s+/)`: one more than the number of runs of
white space. -/
def wordCount (cleaned : JSString) : Nat := wsRuns false cleaned + 1

/-- The percentage chosen by `summaryLength`. -/
def percentOf (summaryLength : JSValue) : Nat :=
  match summaryLength with
  | .str s =>
    if s = lit "short" then 25
    else if s = lit "medium" then 45
    else if s = lit "long" then 70
    else 40
  | _ => 40

/-- The double written `0.85`. -/
def c085 : JSNumber := roundToDouble false 85 100

/-- The double written `1.15`. -/
def c115 : JSNumber := roundToDouble false 115 100

/-- The word bounds computed by the handler. -/
structure WordBounds where
  percent : Nat
  targetWords : JSNumber
  minWords : JSNumber
  maxWords : JSNumber
  deriving DecidableEq

/-- The bounds `generateNoteFromText` computes from the word count and the
requested length, in the double arithmetic of the language. -/
def wordBounds (count : Nat) (summaryLength : JSValue) : WordBounds :=
  let percent := percentOf summaryLength
  let targetWords := JSNumber.max (JSNumber.ofNat 120)
    (JSNumber.floor (JSNumber.div
      (JSNumber.mul (JSNumber.ofNat count) (JSNumber.ofNat percent)) (JSNumber.ofNat 100)))
  { percent := percent
    targetWords := targetWords
    minWords := JSNumber.floor (JSNumber.mul targetWords c085)
    maxWords := JSNumber.floor (JSNumber.mul targetWords c115) }

/-- The bounds the handler computes for the text `content` of a request. -/
def noteBounds (content : JSString) (summaryLength : JSValue) : WordBounds :=
  wordBounds (wordCount (cleanInputText (some content))) summaryLength

/-- How `generateNoteFromText` ends: the 400 answer for a missing text, the 500
answer for a rejected value, the 500 answer of the `catch` clause, or the note
that is saved and returned. -/
inductive NoteResult
  | badRequest
  | rejected
  | serverError
  | saved (title : JSValue) (content : JSString) (summary : JSValue)

/-- The acceptance check and what follows it in `generateNoteFromText`, for the
value `data` that `callGeminiWithRetry` returned. -/
def noteFromData (cleaned : JSString) (data : JSValue) : NoteResult :=
  if !truthy data || typeOf data != lit "object" then .rejected
  else
    .saved
      (if truthy (getProp data (lit "title")) then getProp data (lit "title")
        else .str (lit "Névtelen jegyzet"))
      cleaned
      (if truthy (getProp data (lit "summary")) then getProp data (lit "summary")
        else .str [])

/-- The handler `generateNoteFromText`, on the `content` of the request body
(`none` when it is missing) and the client's answers. The prompt, which carries
the word bounds and the cleaned text, goes to the remote service and has no
other effect; an exception of the call ends in the `catch` clause. -/
def generateNoteFromText (content : Option JSString)
    (client : Nat → Except JSError JSString) : NoteResult :=
  match content with
  | none => .badRequest
  | some [] => .badRequest
  | some text =>
    match (callGeminiWithRetry client 3).1 with
    | .error _ => .serverError
    | .ok data => noteFromData (cleanInputText (some text)) data

/-! ## 6) `generateQuiz` -/

/-- The constant `questionCount`. -/
def questionCount : Nat := 30

/-- The property `length` of an array. -/
def arrayLength : JSValue → Nat
  | .arr items => items.length
  | _ => 0

/-- How `generateQuiz` ends: the 404 answer, the 500 answer for a rejected
value, the 500 answer of the `catch` clause, or the value stored in
`note.quizQuestions` and the value sent back as `quizQuestions`. -/
inductive QuizResult
  | notFound
  | rejected
  | serverError
  | accepted (stored : JSValue) (returned : JSValue)

/-- The acceptance check and what follows it in `generateQuiz`, for the value
`data` that `callGeminiWithRetry` returned. -/
def quizFromData (data : JSValue) : QuizResult :=
  if !isArray data || arrayLength data != questionCount then .rejected
  else .accepted data data

/-- The handler `generateQuiz`, on the summary of the note found (`none` when
no note is found) and the client's answers. -/
def generateQuiz (note : Option (Option JSString))
    (client : Nat → Except JSError JSString) : QuizResult :=
  match note with
  | none => .notFound
  | some _ =>
    match (callGeminiWithRetry client 3).1 with
    | .error _ => .serverError
    | .ok data => quizFromData data

/-! ### Shapes of parser states -/

/-- The kind of the outermost container in a stack of frames, `self` when the
stack is empty: `some true` for an object, `some false` for an array. -/
def bottomKind : List Frame → Option Bool → Option Bool
  | [], self => self
  | .arr _ :: stack, _ => bottomKind stack (some false)
  | .obj _ _ :: stack, _ => bottomKind stack (some true)

/-- The kind of a value: `some true` for an object, `some false` for an array. -/
def kindOf : JSValue → Option Bool
  | .obj _ => some true
  | .arr _ => some false
  | _ => none

/-- The kind of the outermost container the parser is inside of, or has
completed. -/
def outer : PState → Option Bool
  | .value stack => bottomKind stack none
  | .arrFirst stack => bottomKind stack (some false)
  | .inArr _ stack => bottomKind stack (some false)
  | .objFirst stack => bottomKind stack (some true)
  | .objKey _ stack => bottomKind stack (some true)
  | .objColon _ _ stack => bottomKind stack (some true)
  | .inObj _ stack => bottomKind stack (some true)
  | .done v => kindOf v

/-- An opening brace or bracket. -/
def isOpen : Token → Bool
  | .lbrace => true
  | .lbracket => true
  | _ => false

/-- The lexer is not inside a word that expects a brace. -/
def lexOK : LexState → Bool
  | .word rest _ => !rest.contains 123
  | _ => true

/-- The parser has seen nothing yet or has completed the top-level value. -/
def atTop : PState → Bool
  | .value [] => true
  | .done _ => true
  | _ => false

/-! ### Shapes of candidate spans and of lexer states -/

/-- The text starts with `{` and ends with a later `}`, or starts with `[` and
ends with a later `]`. -/
def spanShape : JSString → Bool
  | c :: rest =>
    (c == 123 && rest.getLast? == some 125) || (c == 91 && rest.getLast? == some 93)
  | [] => false

/-- The comma repair has a match somewhere in `s`. -/
def hasRepair : JSString → Bool
  | [] => false
  | c :: rest => (commaAt (c :: rest)).isSome || hasRepair rest

/-- A word the lexer is inside of stands for a value that is no container. -/
def lexScalar : LexState → Bool
  | .word _ v => kindOf v == none
  | _ => true

/-- The lexer is between tokens. -/
def isStart : LexState → Bool
  | .start => true
  | _ => false

/-- The text so far is the beginning of one scalar and nothing else: the lexer
is inside the first token with the parser still waiting, or the parser has
completed a top-level value that is no container. -/
def scalarOnly : LexState × PState → Bool
  | (l, .value []) => !isStart l && lexScalar l
  | (_, .done v) => kindOf v == none
  | _ => false

/-! ## Theorems -/

/-! ### The global replace -/

theorem replaceGlobal_drop (m : JSString → Option (Nat × JSString)) (k : Nat) (s : JSString) :
    replaceGlobal m k s = replaceGlobal m 0 (s.drop k) := by
  induction s generalizing k with
  | nil => cases k <;> simp [replaceGlobal]
  | cons c rest ih =>
    cases k with
    | zero => simp
    | succ k => simp only [replaceGlobal, List.drop_succ_cons]; exact ih k

theorem removeNul_eq (s : JSString) :
    replaceGlobal nulAt 0 s = s.filter (fun c => c != 0) := by
  induction s with
  | nil => simp [replaceGlobal]
  | cons c rest ih =>
    by_cases h : c = 0
    · simp [replaceGlobal, nulAt, h, ih]
    · simp [replaceGlobal, nulAt, h, ih]

theorem drop_takeWhile_length (p : Nat → Bool) (l : JSString) :
    l.drop (l.takeWhile p).length = l.dropWhile p := by
  induction l with
  | nil => rfl
  | cons a l ih =>
    by_cases h : p a
    · simp [List.takeWhile_cons, List.dropWhile_cons, h, ih]
    · simp [List.takeWhile_cons, List.dropWhile_cons, h]

theorem stripTags_cons_match (c : Nat) (rest : JSString) (h : c = 60 ∧ 62 ∈ rest) :
    replaceGlobal tagAt 0 (c :: rest) =
      replaceGlobal tagAt 0 ((rest.dropWhile (fun d => d != 62)).tail) := by
  have : tagAt (c :: rest) = some ((rest.takeWhile (fun d => d != 62)).length + 2, []) := by
    simp only [tagAt]; rw [if_pos h]
  simp only [replaceGlobal, this, List.nil_append]
  rw [replaceGlobal_drop, ← drop_takeWhile_length, ← List.drop_one, List.drop_drop]

theorem stripTags_cons_skip (c : Nat) (rest : JSString) (h : ¬(c = 60 ∧ 62 ∈ rest)) :
    replaceGlobal tagAt 0 (c :: rest) = c :: replaceGlobal tagAt 0 rest := by
  have : tagAt (c :: rest) = none := by
    simp only [tagAt]; rw [if_neg h]
  simp only [replaceGlobal, this]

theorem length_induction {P : JSString → Prop}
    (step : ∀ s, (∀ t : JSString, t.length < s.length → P t) → P s) : ∀ s, P s := by
  intro s
  generalize hn : s.length = n
  induction n using Nat.strong_induction_on generalizing s with
  | _ n ih =>
    apply step
    intro t ht
    exact ih t.length (hn ▸ ht) t rfl

theorem tagRest_length (rest : JSString) :
    ((rest.dropWhile (fun d => d != 62)).tail).length < (rest.length + 1) := by
  have := (List.dropWhile_suffix (fun d => d != 62) (l := rest)).length_le
  simp only [List.length_tail]
  omega

theorem tagRest_sublist (rest : JSString) :
    ((rest.dropWhile (fun d => d != 62)).tail).Sublist rest :=
  (List.tail_sublist _).trans (List.dropWhile_suffix _).sublist

theorem stripTags_sublist (s : JSString) : (replaceGlobal tagAt 0 s).Sublist s := by
  refine length_induction (P := fun s => (replaceGlobal tagAt 0 s).Sublist s) ?_ s
  intro s ih
  cases s with
  | nil => simp [replaceGlobal]
  | cons c rest =>
    by_cases hm : c = 60 ∧ 62 ∈ rest
    · rw [stripTags_cons_match c rest hm]
      have h1 := ih _ (tagRest_length rest)
      exact (h1.trans (tagRest_sublist rest)).trans (List.sublist_cons_self c rest)
    · rw [stripTags_cons_skip c rest hm]
      exact (ih rest (by simp)).cons₂ c

theorem stripTags_ltGt (s : JSString) : ltGt (replaceGlobal tagAt 0 s) = false := by
  refine length_induction (P := fun s => ltGt (replaceGlobal tagAt 0 s) = false) ?_ s
  intro s ih
  cases s with
  | nil => simp [replaceGlobal, ltGt]
  | cons c rest =>
    by_cases hm : c = 60 ∧ 62 ∈ rest
    · rw [stripTags_cons_match c rest hm]
      exact ih _ (tagRest_length rest)
    · rw [stripTags_cons_skip c rest hm]
      simp only [ltGt, ih rest (by simp), Bool.or_false, Bool.and_eq_false_imp, beq_iff_eq]
      intro hc
      simp only [List.contains_eq_any_beq, List.any_eq_false, beq_iff_eq]
      intro x hx hx62
      exact hm ⟨hc, hx62 ▸ (stripTags_sublist rest).subset hx⟩

theorem stripTags_id (s : JSString) (h : ltGt s = false) : replaceGlobal tagAt 0 s = s := by
  induction s with
  | nil => simp [replaceGlobal]
  | cons c rest ih =>
    simp only [ltGt, Bool.or_eq_false_iff, Bool.and_eq_false_imp, beq_iff_eq] at h
    have hm : ¬(c = 60 ∧ 62 ∈ rest) := by
      rintro ⟨hc, hr⟩
      have := h.1 hc
      simp [List.contains_eq_any_beq] at this
      exact this hr
    rw [stripTags_cons_skip c rest hm, ih h.2]

/-! ### Collapsing white space -/

theorem collapse_cons_match (c d : Nat) (rest : JSString)
    (hc : isWhiteSpace c = true) (hd : isWhiteSpace d = true) :
    replaceGlobal spacesAt 0 (c :: d :: rest) =
      32 :: replaceGlobal spacesAt 0 (rest.dropWhile isWhiteSpace) := by
  have : spacesAt (c :: d :: rest) =
      some ((rest.takeWhile isWhiteSpace).length + 2, [32]) := by
    simp only [spacesAt]; rw [if_pos ⟨hc, hd⟩]
  simp only [replaceGlobal, this]
  rw [replaceGlobal_drop, ← drop_takeWhile_length]
  simp

theorem collapse_cons_skip (c : Nat) (rest : JSString)
    (h : isWhiteSpace c = false ∨ ∀ d r, rest = d :: r → isWhiteSpace d = false) :
    replaceGlobal spacesAt 0 (c :: rest) = c :: replaceGlobal spacesAt 0 rest := by
  have : spacesAt (c :: rest) = none := by
    cases rest with
    | nil => simp [spacesAt]
    | cons d r =>
      simp only [spacesAt]
      rw [if_neg]
      rintro ⟨hc, hd⟩
      rcases h with h | h
      · simp [hc] at h
      · simp [h d r rfl] at hd
  simp only [replaceGlobal, this]

theorem headNotWs_dropWhile (s : JSString) : headNotWs (s.dropWhile isWhiteSpace) := by
  intro d r h
  induction s with
  | nil => simp at h
  | cons a l ih =>
    by_cases ha : isWhiteSpace a = true
    · rw [List.dropWhile_cons_of_pos ha] at h; exact ih h
    · rw [List.dropWhile_cons_of_neg ha] at h
      simp only [List.cons.injEq] at h
      rw [← h.1]; simpa using ha

theorem collapse_headNotWs (s : JSString) (h : headNotWs s) :
    headNotWs (replaceGlobal spacesAt 0 s) := by
  cases s with
  | nil => intro d r hd; simp [replaceGlobal] at hd
  | cons c rest =>
    have hc := h c rest rfl
    rw [collapse_cons_skip c rest (Or.inl hc)]
    intro d r hd
    simp only [List.cons.injEq] at hd
    rw [← hd.1]; exact hc

theorem adjWs_cons_of_headNotWs (c : Nat) (s : JSString) (h : headNotWs s) :
    adjWs (c :: s) = adjWs s := by
  cases s with
  | nil => simp [adjWs]
  | cons d r => simp [adjWs, h d r rfl]

theorem adjWs_cons_of_not (c : Nat) (s : JSString) (h : isWhiteSpace c = false) :
    adjWs (c :: s) = adjWs s := by
  cases s with
  | nil => simp [adjWs]
  | cons d r => simp [adjWs, h]

theorem collapse_adjWs (s : JSString) : adjWs (replaceGlobal spacesAt 0 s) = false := by
  refine length_induction (P := fun s => adjWs (replaceGlobal spacesAt 0 s) = false) ?_ s
  intro s ih
  cases s with
  | nil => simp [replaceGlobal, adjWs]
  | cons c rest =>
    by_cases hc : isWhiteSpace c = true
    · cases rest with
      | nil => simp [replaceGlobal, spacesAt, adjWs]
      | cons d r =>
        by_cases hd : isWhiteSpace d = true
        · rw [collapse_cons_match c d r hc hd]
          rw [adjWs_cons_of_headNotWs _ _ (collapse_headNotWs _ (headNotWs_dropWhile r))]
          apply ih
          have := (List.dropWhile_suffix isWhiteSpace (l := r)).length_le
          simp only [List.length_cons]; omega
        · have hd' : isWhiteSpace d = false := by simpa using hd
          have hh : headNotWs (d :: r) := by
            intro x y hxy; simp only [List.cons.injEq] at hxy; rw [← hxy.1]; exact hd'
          rw [collapse_cons_skip c (d :: r) (Or.inr hh)]
          rw [adjWs_cons_of_headNotWs _ _ (collapse_headNotWs _ hh)]
          exact ih _ (by simp)
    · have hc' : isWhiteSpace c = false := by simpa using hc
      rw [collapse_cons_skip c rest (Or.inl hc'), adjWs_cons_of_not _ _ hc']
      exact ih _ (by simp)

theorem collapse_id (s : JSString) (h : adjWs s = false) : replaceGlobal spacesAt 0 s = s := by
  induction s with
  | nil => simp [replaceGlobal]
  | cons c rest ih =>
    cases rest with
    | nil => simp [replaceGlobal, spacesAt]
    | cons d r =>
      simp only [adjWs, Bool.or_eq_false_iff, Bool.and_eq_false_imp] at h
      rw [collapse_cons_skip c (d :: r), ih h.2]
      by_cases hc : isWhiteSpace c = true
      · right; intro x y hxy; simp only [List.cons.injEq] at hxy
        rw [← hxy.1]; exact h.1 hc
      · left; simpa using hc

theorem collapse_mem (s : JSString) (x : Nat) (hx : x ∈ replaceGlobal spacesAt 0 s) :
    x = 32 ∨ x ∈ s := by
  revert hx
  refine length_induction
    (P := fun s => x ∈ replaceGlobal spacesAt 0 s → x = 32 ∨ x ∈ s) ?_ s
  intro s ih hx
  cases s with
  | nil => simp [replaceGlobal] at hx
  | cons c rest =>
    by_cases hm : isWhiteSpace c = true ∧ ∃ d r, rest = d :: r ∧ isWhiteSpace d = true
    · obtain ⟨hc, d, r, rfl, hd⟩ := hm
      rw [collapse_cons_match c d r hc hd] at hx
      rcases List.mem_cons.1 hx with h | h
      · exact Or.inl h
      · have hlen : (r.dropWhile isWhiteSpace).length < (c :: d :: r).length := by
          have := (List.dropWhile_suffix isWhiteSpace (l := r)).length_le
          simp only [List.length_cons]; omega
        rcases ih _ hlen h with h | h
        · exact Or.inl h
        · right
          exact List.mem_cons_of_mem _ (List.mem_cons_of_mem _
            ((List.dropWhile_suffix isWhiteSpace).subset h))
    · rw [collapse_cons_skip c rest] at hx
      · rcases List.mem_cons.1 hx with h | h
        · right; rw [h]; exact List.mem_cons_self _ _
        · rcases ih rest (by simp) h with h | h
          · exact Or.inl h
          · exact Or.inr (List.mem_cons_of_mem _ h)
      · by_cases hc : isWhiteSpace c = true
        · right; intro d r hr
          by_contra hd
          exact hm ⟨hc, d, r, hr, by simpa using hd⟩
        · left; simpa using hc

theorem filter_isAngle_dropWhile (r : JSString) :
    (r.dropWhile isWhiteSpace).filter isAngle = r.filter isAngle := by
  induction r with
  | nil => rfl
  | cons a l ih =>
    by_cases ha : isWhiteSpace a = true
    · rw [List.dropWhile_cons_of_pos ha, ih]
      have : isAngle a = false := by
        simp only [isWhiteSpace, isAngle] at ha ⊢
        simp only [Bool.or_eq_true, Bool.and_eq_true, beq_iff_eq, decide_eq_true_eq] at ha
        simp only [Bool.or_eq_false_iff, beq_eq_false_iff_ne]
        omega
      simp [List.filter_cons, this]
    · rw [List.dropWhile_cons_of_neg ha]

theorem isAngle_of_ws (a : Nat) (ha : isWhiteSpace a = true) : isAngle a = false := by
  simp only [isWhiteSpace, isAngle] at ha ⊢
  simp only [Bool.or_eq_true, Bool.and_eq_true, beq_iff_eq, decide_eq_true_eq] at ha
  simp only [Bool.or_eq_false_iff, beq_eq_false_iff_ne]
  omega

theorem collapse_filter_isAngle (s : JSString) :
    (replaceGlobal spacesAt 0 s).filter isAngle = s.filter isAngle := by
  refine length_induction
    (P := fun s => (replaceGlobal spacesAt 0 s).filter isAngle = s.filter isAngle) ?_ s
  intro s ih
  cases s with
  | nil => simp [replaceGlobal]
  | cons c rest =>
    by_cases hm : isWhiteSpace c = true ∧ ∃ d r, rest = d :: r ∧ isWhiteSpace d = true
    · obtain ⟨hc, d, r, rfl, hd⟩ := hm
      rw [collapse_cons_match c d r hc hd]
      have hlen : (r.dropWhile isWhiteSpace).length < (c :: d :: r).length := by
        have := (List.dropWhile_suffix isWhiteSpace (l := r)).length_le
        simp only [List.length_cons]; omega
      have h32 : isAngle 32 = false := by decide
      simp only [List.filter_cons, h32, isAngle_of_ws c hc, isAngle_of_ws d hd]
      simp only [Bool.false_eq_true, if_false]
      rw [ih _ hlen, filter_isAngle_dropWhile]
    · rw [collapse_cons_skip c rest]
      · simp only [List.filter_cons, ih rest (by simp)]
      · by_cases hc : isWhiteSpace c = true
        · right; intro d r hr
          by_contra hd
          exact hm ⟨hc, d, r, hr, by simpa using hd⟩
        · left; simpa using hc

theorem ltGt_filter_isAngle (s : JSString) : ltGt (s.filter isAngle) = ltGt s := by
  induction s with
  | nil => rfl
  | cons c rest ih =>
    have hcont : (rest.filter isAngle).contains 62 = rest.contains 62 := by
      rw [Bool.eq_iff_iff]
      simp only [List.contains_eq_any_beq, List.any_eq_true, beq_iff_eq, List.mem_filter]
      constructor
      · rintro ⟨x, ⟨hx, _⟩, h⟩; exact ⟨x, hx, h⟩
      · rintro ⟨x, hx, h⟩; exact ⟨x, ⟨hx, by rw [← h]; decide⟩, h⟩
    by_cases hc : isAngle c = true
    · rw [List.filter_cons_of_pos hc]
      simp only [ltGt, ih, hcont]
    · rw [List.filter_cons_of_neg hc, ih]
      have : (c == 60) = false := by
        simp only [isAngle, Bool.or_eq_true, beq_iff_eq, not_or] at hc
        simpa using hc.1
      simp [ltGt, this]

theorem collapse_ltGt (s : JSString) (h : ltGt s = false) :
    ltGt (replaceGlobal spacesAt 0 s) = false := by
  rw [← ltGt_filter_isAngle, collapse_filter_isAngle, ltGt_filter_isAngle, h]

theorem ltGt_sublist {t s : JSString} (hs : t.Sublist s) (h : ltGt s = false) :
    ltGt t = false := by
  induction hs with
  | slnil => rfl
  | cons a _ ih =>
    simp only [ltGt, Bool.or_eq_false_iff] at h
    exact ih h.2
  | @cons₂ t s a hts ih =>
    simp only [ltGt, Bool.or_eq_false_iff, Bool.and_eq_false_imp, beq_iff_eq] at h ⊢
    refine ⟨fun hc => ?_, ih h.2⟩
    have := h.1 hc
    simp only [List.contains_eq_any_beq, List.any_eq_false, beq_iff_eq] at this ⊢
    intro x hx
    exact this x (hts.subset hx)

/-! ### Trimming -/

theorem trim_eq (s : JSString) :
    trim s = (s.dropWhile isWhiteSpace).rdropWhile isWhiteSpace := rfl

theorem trim_sublist (s : JSString) : (trim s).Sublist s := by
  rw [trim_eq]
  exact (List.rdropWhile_prefix _ _).sublist.trans (List.dropWhile_suffix _).sublist

theorem adjWs_tail (a : Nat) (s : JSString) (h : adjWs (a :: s) = false) : adjWs s = false := by
  cases s with
  | nil => rfl
  | cons b r =>
    simp only [adjWs, Bool.or_eq_false_iff] at h
    exact h.2

theorem adjWs_suffix (u t : JSString) (h : adjWs (u ++ t) = false) : adjWs t = false := by
  induction u with
  | nil => simpa using h
  | cons a u ih => exact ih (adjWs_tail a _ h)

theorem adjWs_append_left : ∀ (t u : JSString), adjWs (t ++ u) = false → adjWs t = false
  | [], _, _ => rfl
  | [_], _, _ => rfl
  | a :: b :: t, u, h => by
    simp only [List.cons_append, adjWs, Bool.or_eq_false_iff] at h ⊢
    exact ⟨h.1, adjWs_append_left (b :: t) u h.2⟩

theorem trim_adjWs (s : JSString) (h : adjWs s = false) : adjWs (trim s) = false := by
  rw [trim_eq]
  obtain ⟨u, hu⟩ := List.dropWhile_suffix isWhiteSpace (l := s)
  obtain ⟨v, hv⟩ := List.rdropWhile_prefix isWhiteSpace (s.dropWhile isWhiteSpace)
  apply adjWs_append_left _ v
  rw [hv]
  apply adjWs_suffix u
  rw [hu]; exact h

theorem trim_head (s : JSString) : headNotWs (trim s) := by
  rw [trim_eq]
  obtain ⟨v, hv⟩ := List.rdropWhile_prefix isWhiteSpace (s.dropWhile isWhiteSpace)
  intro d r hd
  rw [hd] at hv
  exact headNotWs_dropWhile s d (r ++ v) (by rw [← hv]; rfl)

theorem trim_last (s : JSString) (c : Nat) (h : (trim s).getLast? = some c) :
    isWhiteSpace c = false := by
  rw [trim_eq] at h
  have hne : (s.dropWhile isWhiteSpace).rdropWhile isWhiteSpace ≠ [] := by
    intro h0; rw [h0] at h; simp at h
  have := List.rdropWhile_last_not isWhiteSpace (s.dropWhile isWhiteSpace) hne
  rw [List.getLast?_eq_getLast _ hne] at h
  simp only [Option.some.injEq] at h
  rw [← h]; simpa using this

theorem trim_id (s : JSString) (hh : headNotWs s)
    (hl : ∀ c, s.getLast? = some c → isWhiteSpace c = false) : trim s = s := by
  rw [trim_eq]
  have h1 : s.dropWhile isWhiteSpace = s := by
    cases s with
    | nil => rfl
    | cons a l => rw [List.dropWhile_cons_of_neg]; simp [hh a l rfl]
  rw [h1, List.rdropWhile_eq_self_iff]
  intro hne
  have := hl _ (List.getLast?_eq_getLast _ hne)
  simp [this]

/-! ### `cleanInputText` -/

theorem cleanInputText_nul (x : Option JSString) : 0 ∉ cleanInputText x := by
  rcases x with _ | _ | ⟨c, rest⟩
  · simp [cleanInputText]
  · simp [cleanInputText]
  · simp only [cleanInputText]
    intro h
    have h1 := (trim_sublist _).subset h
    rcases collapse_mem _ _ h1 with h2 | h2
    · omega
    · have h3 := (stripTags_sublist _).subset h2
      rw [removeNul_eq] at h3
      simp at h3

theorem cleanInputText_ltGt (x : Option JSString) : ltGt (cleanInputText x) = false := by
  rcases x with _ | _ | ⟨c, rest⟩
  · rfl
  · rfl
  · simp only [cleanInputText]
    exact ltGt_sublist (trim_sublist _) (collapse_ltGt _ (stripTags_ltGt _))

theorem cleanInputText_adjWs (x : Option JSString) : adjWs (cleanInputText x) = false := by
  rcases x with _ | _ | ⟨c, rest⟩
  · rfl
  · rfl
  · simp only [cleanInputText]
    exact trim_adjWs _ (collapse_adjWs _)

theorem cleanInputText_head (x : Option JSString) : headNotWs (cleanInputText x) := by
  rcases x with _ | _ | ⟨c, rest⟩
  · intro d r h; simp [cleanInputText] at h
  · intro d r h; simp [cleanInputText] at h
  · simp only [cleanInputText]
    exact trim_head _

theorem cleanInputText_last (x : Option JSString) (c : Nat)
    (h : (cleanInputText x).getLast? = some c) : isWhiteSpace c = false := by
  rcases x with _ | _ | ⟨a, rest⟩
  · simp [cleanInputText] at h
  · simp [cleanInputText] at h
  · simp only [cleanInputText] at h
    exact trim_last _ c h

theorem ltGt_of_tag (pre mid post : JSString) : ltGt (pre ++ 60 :: mid ++ 62 :: post) = true := by
  induction pre with
  | nil => simp [ltGt]
  | cons a pre ih =>
    simp only [List.cons_append, List.append_assoc] at ih ⊢
    simp [ltGt, ih]

theorem adjWs_of_pair (pre : JSString) (a b : Nat) (post : JSString)
    (ha : isWhiteSpace a = true) (hb : isWhiteSpace b = true) :
    adjWs (pre ++ a :: b :: post) = true := by
  by_contra h
  have h1 := adjWs_suffix pre _ (by simpa using h)
  simp [adjWs, ha, hb] at h1

/-- C2: for every input (a string, or `none` for an undefined one), the text
returned by `cleanInputText` contains no NUL code unit, no `<` followed by
non-`>` code units and a `>`, no two neighbouring white-space code units, and
neither starts nor ends with white space. -/
theorem cleanInputText_safe (x : Option JSString) :
    0 ∉ cleanInputText x ∧
    (¬ ∃ pre mid post, 62 ∉ mid ∧ cleanInputText x = pre ++ 60 :: mid ++ 62 :: post) ∧
    (¬ ∃ pre a b post, isWhiteSpace a = true ∧ isWhiteSpace b = true ∧
        cleanInputText x = pre ++ a :: b :: post) ∧
    (∀ c, (cleanInputText x).head? = some c → isWhiteSpace c = false) ∧
    (∀ c, (cleanInputText x).getLast? = some c → isWhiteSpace c = false) := by
  refine ⟨cleanInputText_nul x, ?_, ?_, ?_, cleanInputText_last x⟩
  · rintro ⟨pre, mid, post, _, h⟩
    have := cleanInputText_ltGt x
    rw [h, ltGt_of_tag] at this
    exact Bool.noConfusion this
  · rintro ⟨pre, a, b, post, ha, hb, h⟩
    have := cleanInputText_adjWs x
    rw [h, adjWs_of_pair pre a b post ha hb] at this
    exact Bool.noConfusion this
  · intro c hc
    cases hx : cleanInputText x with
    | nil => rw [hx] at hc; simp at hc
    | cons d r =>
      rw [hx] at hc
      simp only [List.head?_cons, Option.some.injEq] at hc
      rw [← hc]
      exact cleanInputText_head x d r hx

/-- C1: normalising twice equals normalising once, for every input (a string,
or `none` for an undefined one, which is treated as the empty string). -/
theorem cleanInputText_idempotent (x : Option JSString) :
    cleanInputText (some (cleanInputText x)) = cleanInputText x := by
  cases hx : cleanInputText x with
  | nil => rfl
  | cons d r =>
    simp only [cleanInputText]
    rw [← hx, removeNul_eq, List.filter_eq_self.2, stripTags_id _ (cleanInputText_ltGt x),
      collapse_id _ (cleanInputText_adjWs x),
      trim_id _ (cleanInputText_head x) (cleanInputText_last x)]
    intro a ha
    have := cleanInputText_nul x
    simp only [bne_iff_ne, ne_eq]
    rintro rfl
    exact this ha

/-! ### The retry loop -/

theorem retryLoop_calls_le (client : Nat → Except JSError JSString) (remaining i : Nat) :
    (retryLoop client remaining i).2 ≤ i + remaining := by
  induction remaining generalizing i with
  | zero => simp [retryLoop]
  | succ r ih =>
    simp only [retryLoop]
    cases client i with
    | error e => simp
    | ok raw =>
      simp only
      split
      · simp
      · have := ih (i + 1); omega

theorem retryLoop_all_falsy (client : Nat → Except JSError JSString) (remaining i : Nat)
    (h : ∀ j, i ≤ j → j < i + remaining →
      ∃ r, client j = .ok r ∧ truthy (parseJSONSafe r) = false) :
    retryLoop client remaining i = (.ok .null, i + remaining) := by
  induction remaining generalizing i with
  | zero => simp [retryLoop]
  | succ r ih =>
    obtain ⟨raw, hraw, hf⟩ := h i (le_refl i) (by omega)
    simp only [retryLoop, hraw, hf, Bool.false_eq_true, if_false]
    rw [ih (i + 1) (fun j h1 h2 => h j (by omega) (by omega))]
    congr 1; omega

theorem retryLoop_first_truthy (client : Nat → Except JSError JSString)
    (skip remaining i : Nat) (raw : JSString) (hlt : skip < remaining)
    (hfirst : ∀ j, i ≤ j → j < i + skip →
      ∃ r, client j = .ok r ∧ truthy (parseJSONSafe r) = false)
    (hraw : client (i + skip) = .ok raw) (ht : truthy (parseJSONSafe raw) = true) :
    retryLoop client remaining i = (.ok (parseJSONSafe raw), i + skip + 1) := by
  induction skip generalizing remaining i with
  | zero =>
    obtain ⟨r, rfl⟩ : ∃ r, remaining = r + 1 := ⟨remaining - 1, by omega⟩
    simp only [Nat.add_zero] at hraw
    simp [retryLoop, hraw, ht]
  | succ s ih =>
    obtain ⟨r, rfl⟩ : ∃ r, remaining = r + 1 := ⟨remaining - 1, by omega⟩
    obtain ⟨raw0, hraw0, hf⟩ := hfirst i (le_refl i) (by omega)
    simp only [retryLoop, hraw0, hf, Bool.false_eq_true, if_false]
    rw [ih r (i + 1) (by omega) (fun j h1 h2 => hfirst j (by omega) (by omega))
      (by rw [← hraw]; congr 1; omega)]
    congr 1; omega

/-- C3 (as amended): for every number of attempts `n` and every client, if
attempt `k ≤ n` is the first whose extraction is truthy (every earlier attempt
returned text whose extraction is falsy), `callGeminiWithRetry` returns exactly
that extracted value after exactly `k` calls of the client. -/
theorem retry_first_truthy (client : Nat → Except JSError JSString) (n k : Nat)
    (raw : JSString) (hk : 1 ≤ k) (hkn : k ≤ n)
    (hfirst : ∀ i, i + 1 < k → ∃ r, client i = .ok r ∧ truthy (parseJSONSafe r) = false)
    (hraw : client (k - 1) = .ok raw) (ht : truthy (parseJSONSafe raw) = true) :
    callGeminiWithRetry client n = (.ok (parseJSONSafe raw), k) := by
  unfold callGeminiWithRetry
  rw [retryLoop_first_truthy client (k - 1) n 0 raw (by omega)
    (fun j _ h2 => hfirst j (by omega)) (by simpa using hraw) ht]
  congr 1; omega

/-- C3, witness: text that is not JSON on attempts 1 and 2 and valid JSON on
attempt 3, with three attempts allowed, gives the parsed value after exactly
three calls. -/
theorem retry_first_truthy_witness :
    callGeminiWithRetry
        (scripted [lit "oops", lit "still no json", lit "\x7b\"a\":1\x7d"] []) 3 =
      (.ok (.obj [(lit "a", .num (JSNumber.ofNat 1))]), 3) :=
  retry_first_truthy
    (scripted [lit "oops", lit "still no json", lit "\x7b\"a\":1\x7d"] []) 3 3
    (lit "\x7b\"a\":1\x7d") (by decide) (by decide)
    (fun i hi => by
      have : i = 0 ∨ i = 1 := by omega
      rcases this with rfl | rfl
      · exact ⟨lit "oops", rfl, rfl⟩
      · exact ⟨lit "still no json", rfl, rfl⟩)
    rfl rfl

/-- C3, counterexample: with two attempts allowed and a client that answers
`false` and then an empty object, the first attempt already has an extraction
that is not `null` (the boolean `false`), yet the loop does not return it after
one call: it goes on and returns the object after two calls. -/
theorem retry_nonnull_counterexample :
    scripted [lit "false", lit "\x7b\x7d"] [] 0 = .ok (lit "false") ∧
    parseJSONSafe (lit "false") = .bool false ∧
    parseJSONSafe (lit "false") ≠ .null ∧
    callGeminiWithRetry (scripted [lit "false", lit "\x7b\x7d"] []) 2 = (.ok (.obj []), 2) ∧
    callGeminiWithRetry (scripted [lit "false", lit "\x7b\x7d"] []) 2 ≠
      (.ok (parseJSONSafe (lit "false")), 1) := by
  refine ⟨rfl, rfl, ?_, rfl, ?_⟩
  · intro h
    have h2 : parseJSONSafe (lit "false") = .bool false := rfl
    rw [h2] at h
    exact JSValue.noConfusion h
  · intro h
    have h2 : callGeminiWithRetry (scripted [lit "false", lit "\x7b\x7d"] []) 2 =
      (.ok (.obj []), 2) := rfl
    rw [h2] at h
    have := congrArg Prod.snd h
    simp at this

/-- C9: for every number of attempts `n`, a client whose output extracts to
`null` on every attempt makes `callGeminiWithRetry` return `null` after
exactly `n` calls; and whatever the client does, it is never called more than
`n` times. -/
theorem retry_exhaustion (client : Nat → Except JSError JSString) (n : Nat) :
    ((∀ i, i < n → ∃ r, client i = .ok r ∧ parseJSONSafe r = .null) →
      callGeminiWithRetry client n = (.ok .null, n)) ∧
    (callGeminiWithRetry client n).2 ≤ n := by
  constructor
  · intro h
    unfold callGeminiWithRetry
    rw [retryLoop_all_falsy client n 0]
    · simp
    · intro j _ hj
      obtain ⟨r, hr, hnull⟩ := h j (by omega)
      exact ⟨r, hr, by rw [hnull]; rfl⟩
  · have := retryLoop_calls_le client n 0
    simpa [callGeminiWithRetry] using this

/-- C9, witness: a client that never returns parseable text, with three
attempts allowed, gives `null` after exactly three calls. -/
theorem retry_exhaustion_witness :
    callGeminiWithRetry (scripted [] (lit "no json here at all")) 3 = (.ok .null, 3) ∧
    (callGeminiWithRetry (scripted [] (lit "no json here at all")) 3).2 ≤ 3 :=
  ⟨(retry_exhaustion (scripted [] (lit "no json here at all")) 3).1
      (fun _ _ => ⟨lit "no json here at all", rfl, rfl⟩),
    (retry_exhaustion (scripted [] (lit "no json here at all")) 3).2⟩

/-! ### The acceptance checks -/

/-- C4: the check of `generateQuiz` accepts a value exactly when it is an array
of length `questionCount = 30`, whatever its items are, and then the value
stored and the value returned are that array itself; every other value (an
array of another length, or no array at all) is rejected. -/
theorem quiz_acceptance (data : JSValue) :
    questionCount = 30 ∧
    ((∃ items, data = .arr items ∧ items.length = 30) →
      quizFromData data = .accepted data data) ∧
    ((¬ ∃ items, data = .arr items ∧ items.length = 30) →
      quizFromData data = .rejected) := by
  refine ⟨rfl, ?_, ?_⟩
  · rintro ⟨items, rfl, hlen⟩
    simp [quizFromData, isArray, arrayLength, questionCount, hlen]
  · intro h
    cases data with
    | arr items =>
      have : items.length ≠ 30 := fun hl => h ⟨items, rfl, hl⟩
      simp [quizFromData, isArray, arrayLength, questionCount, this]
    | _ => simp [quizFromData, isArray]

/-- C4, witness: thirty items of no particular shape are accepted and passed on
unchanged; twenty-nine or thirty-one are rejected, and so is an object. -/
theorem quiz_acceptance_witness :
    quizFromData (.arr (List.replicate 30 .null)) =
      .accepted (.arr (List.replicate 30 .null)) (.arr (List.replicate 30 .null)) ∧
    quizFromData (.arr (List.replicate 29 (.obj []))) = .rejected ∧
    quizFromData (.arr (List.replicate 31 (.obj []))) = .rejected ∧
    quizFromData (.obj []) = .rejected :=
  ⟨(quiz_acceptance (.arr (List.replicate 30 .null))).2.1 ⟨_, rfl, by simp⟩,
    (quiz_acceptance (.arr (List.replicate 29 (.obj [])))).2.2 (by
      rintro ⟨items, h, hl⟩
      simp only [JSValue.arr.injEq] at h
      rw [← h] at hl
      simp at hl),
    (quiz_acceptance (.arr (List.replicate 31 (.obj [])))).2.2 (by
      rintro ⟨items, h, hl⟩
      simp only [JSValue.arr.injEq] at h
      rw [← h] at hl
      simp at hl),
    (quiz_acceptance (.obj [])).2.2 (by rintro ⟨items, h, _⟩; exact JSValue.noConfusion h)⟩

theorem noteFromData_accept (cleaned : JSString) (data : JSValue)
    (h : isPlainObject data = true ∨ isArray data = true) :
    noteFromData cleaned data =
      .saved
        (if truthy (getProp data (lit "title")) then getProp data (lit "title")
          else .str (lit "Névtelen jegyzet"))
        cleaned
        (if truthy (getProp data (lit "summary")) then getProp data (lit "summary")
          else .str []) := by
  have hc : (!truthy data || typeOf data != lit "object") = false := by
    cases data <;> simp [isPlainObject, isArray] at h <;> rfl
  unfold noteFromData
  rw [hc]
  simp

theorem noteFromData_reject (cleaned : JSString) (data : JSValue)
    (h1 : isPlainObject data = false) (h2 : isArray data = false) :
    noteFromData cleaned data = .rejected := by
  have hc : (!truthy data || typeOf data != lit "object") = true := by
    cases data <;> simp [isPlainObject, isArray] at h1 h2
    · rfl
    · rfl
    · simp only [Bool.or_eq_true]; right; rfl
    · simp only [Bool.or_eq_true]; right; rfl
    · simp only [Bool.or_eq_true]; right; rfl
  unfold noteFromData
  rw [hc]
  simp

/-- C5 (as amended): the check of `generateNoteFromText` accepts a value exactly
when it is an object or an array; `null`, `undefined` and every scalar are
rejected. An accepted value is saved with its `title` when that is truthy and
with the default title otherwise, with the cleaned text, and with its `summary`
when that is truthy and with the empty summary otherwise; so a value lacking
`title` and/or `summary` (every array among them) is still accepted. -/
theorem note_acceptance (cleaned : JSString) (data : JSValue) :
    ((isPlainObject data = true ∨ isArray data = true) →
      noteFromData cleaned data =
        .saved
          (if truthy (getProp data (lit "title")) = true then getProp data (lit "title")
            else .str (lit "Névtelen jegyzet"))
          cleaned
          (if truthy (getProp data (lit "summary")) = true then getProp data (lit "summary")
            else .str [])) ∧
    ((isPlainObject data = false ∧ isArray data = false) →
      noteFromData cleaned data = .rejected) := by
  refine ⟨?_, ?_⟩
  · intro h
    exact noteFromData_accept cleaned data h
  · rintro ⟨h1, h2⟩
    exact noteFromData_reject cleaned data h1 h2

/-- C5, witness: an object with a `summary` and no `title` is saved with the
default title and that summary; an object with a `title` and no `summary` is
saved with that title and the empty summary; an object with neither is saved
with both defaults; and the number `5` is rejected. -/
theorem note_acceptance_witness :
    noteFromData (lit "text") (.obj [(lit "summary", .str (lit "S"))]) =
      .saved (.str (lit "Névtelen jegyzet")) (lit "text") (.str (lit "S")) ∧
    noteFromData (lit "text") (.obj [(lit "title", .str (lit "T"))]) =
      .saved (.str (lit "T")) (lit "text") (.str []) ∧
    noteFromData (lit "text") (.obj []) =
      .saved (.str (lit "Névtelen jegyzet")) (lit "text") (.str []) ∧
    noteFromData (lit "text") (.num (JSNumber.ofNat 5)) = .rejected :=
  ⟨(note_acceptance (lit "text") (.obj [(lit "summary", .str (lit "S"))])).1 (Or.inl rfl),
    (note_acceptance (lit "text") (.obj [(lit "title", .str (lit "T"))])).1 (Or.inl rfl),
    (note_acceptance (lit "text") (.obj [])).1 (Or.inl rfl),
    (note_acceptance (lit "text") (.num (JSNumber.ofNat 5))).2 ⟨rfl, rfl⟩⟩

/-- C5, counterexample: an array is accepted. The client's answer `[]` comes
out of the retry loop as the empty array, which passes the check and is saved
as a note with the default title and the empty summary. -/
theorem note_array_counterexample :
    callGeminiWithRetry (scripted [] (lit "[]")) 3 = (.ok (.arr []), 1) ∧
    isArray (.arr []) = true ∧
    noteFromData (lit "text") (.arr []) =
      .saved (.str (lit "Névtelen jegyzet")) (lit "text") (.str []) ∧
    generateNoteFromText (some (lit "text")) (scripted [] (lit "[]")) =
      .saved (.str (lit "Névtelen jegyzet")) (lit "text") (.str []) :=
  ⟨rfl, rfl, rfl, rfl⟩

/-! ### The word bounds -/

/-- C6, at the failing input: for 400 words and the length `medium` the handler
computes the percentage 45, the target 180 and the minimum 153, but the
maximum 206, while `floor(180 * 115 / 100)` is 207. For 1000 words it computes
450, 382 and 517. -/
theorem wordBounds_at_400 :
    wordBounds 400 (.str (lit "medium")) =
      ⟨45, JSNumber.ofNat 180, JSNumber.ofNat 153, JSNumber.ofNat 206⟩ ∧
    max 120 (400 * 45 / 100) = 180 ∧ 180 * 85 / 100 = 153 ∧ 180 * 115 / 100 = 207 ∧
    JSNumber.ofNat 206 ≠ JSNumber.ofNat 207 ∧
    wordBounds 1000 (.str (lit "medium")) =
      ⟨45, JSNumber.ofNat 450, JSNumber.ofNat 382, JSNumber.ofNat 517⟩ := by
  refine ⟨by decide, by decide, by decide, by decide, by decide, by decide⟩

/-! ### The remote call -/

theorem callGemini_response_ne_transport (toStr : JSValue → Option JSString)
    (status : Nat) (body : JSString) :
    callGemini toStr (.response status body) ≠ .error .transport := by
  have hmap : ∀ items e, mapParts items = .error e → e = .typeError := by
    intro items
    induction items with
    | nil => intro e h; simp [mapParts] at h
    | cons p rest ih =>
      intro e h
      simp only [mapParts] at h
      cases hp : partText p with
      | error e1 =>
        rw [hp] at h
        simp only [Except.error.injEq] at h
        subst h
        cases p <;> simp [partText] at hp <;> first | exact hp.symm | (split at hp <;> simp at hp)
      | ok v =>
        rw [hp] at h
        simp only at h
        cases hr : mapParts rest with
        | error e2 => rw [hr] at h; simp only [Except.error.injEq] at h; subst h; exact ih _ hr
        | ok vs => rw [hr] at h; simp at h
  have hjoin : ∀ items e, joinAll toStr items = .error e → e = .typeError := by
    intro items
    induction items with
    | nil => intro e h; simp [joinAll] at h
    | cons v rest ih =>
      intro e h
      simp only [joinAll] at h
      cases hv : joinText toStr v with
      | error e1 =>
        rw [hv] at h
        simp only [Except.error.injEq] at h
        subst h
        cases v <;> simp only [joinText] at hv <;>
          first
          | exact Except.noConfusion hv
          | (split at hv
             · exact Except.noConfusion hv
             · simp only [Except.error.injEq] at hv; exact hv.symm)
      | ok s =>
        rw [hv] at h
        simp only at h
        cases hr : joinAll toStr rest with
        | error e2 => rw [hr] at h; simp only [Except.error.injEq] at h; subst h; exact ih _ hr
        | ok t => rw [hr] at h; simp at h
  intro h
  simp only [callGemini] at h
  split at h
  · simp at h
  · split at h
    · simp at h
    · split at h
      · split at h
        · rename_i e he
          simp only [Except.error.injEq] at h
          subst h
          have := hmap _ _ he
          simp at this
        · split at h
          · rename_i e he
            simp only [Except.error.injEq] at h
            subst h
            have := hjoin _ _ he
            simp at this
          · simp at h
      · simp at h

/-- C8 (as amended): `callGemini` never reads the HTTP status. A transport
error is raised when the request itself fails, and never for a completed
response; a completed response gives the same outcome whatever its status;
when its body is not JSON the body is returned as the text; and a text is
returned only for a completed response. -/
theorem callGemini_status (toStr : JSValue → Option JSString) :
    callGemini toStr .failed = .error .transport ∧
    (∀ status body, callGemini toStr (.response status body) ≠ .error .transport) ∧
    (∀ status other body,
      callGemini toStr (.response status body) = callGemini toStr (.response other body)) ∧
    (∀ status body, JSONparse body = none →
      callGemini toStr (.response status body) = .ok body) ∧
    (∀ wire text, callGemini toStr wire = .ok text →
      ∃ status body, wire = .response status body) := by
  refine ⟨rfl, callGemini_response_ne_transport toStr, fun _ _ _ => rfl, ?_, ?_⟩
  · intro status body h
    simp [callGemini, h]
  · intro wire text h
    cases wire with
    | failed => simp [callGemini] at h
    | response status body => exact ⟨status, body, rfl⟩

/-- C8, witness: a response with status 503 and the body `Service Unavailable`
returns that body as the text. -/
theorem callGemini_status_witness :
    callGemini (fun _ => none) (.response 503 (lit "Service Unavailable")) =
      .ok (lit "Service Unavailable") :=
  (callGemini_status (fun _ => none)).2.2.2.1 503 (lit "Service Unavailable") rfl

/-- C8, counterexample: a response with the status 500 (not a success) and a
body that is not JSON raises nothing: the call returns the body as its text. -/
theorem callGemini_non2xx_counterexample :
    callGemini (fun _ => none) (.response 500 (lit "Internal Server Error")) =
      .ok (lit "Internal Server Error") ∧
    ¬ (200 ≤ 500 ∧ 500 < 300) := by
  exact ⟨rfl, by decide⟩

/-! ### The strict parser: the kind of the result -/

theorem bottomKind_cons (f : Frame) (stack : List Frame) (a b : Option Bool) :
    bottomKind (f :: stack) a = bottomKind (f :: stack) b := by
  cases f <;> rfl

theorem bottomKind_of_some (stack : List Frame) (a : Option Bool) (k : Bool)
    (h : bottomKind stack none = some k) : bottomKind stack a = some k := by
  cases stack with
  | nil => simp [bottomKind] at h
  | cons f s => rw [bottomKind_cons f s a none]; exact h

theorem outer_complete (v : JSValue) (stack : List Frame) :
    outer (complete v stack) = bottomKind stack (kindOf v) := by
  cases stack with
  | nil => rfl
  | cons f s => cases f <;> rfl

theorem outer_complete_of (v : JSValue) (stack : List Frame) (a : Option Bool) (k : Bool)
    (h : bottomKind stack a = some k) (hv : a = none ∨ a = kindOf v) :
    outer (complete v stack) = some k := by
  rw [outer_complete]
  rcases hv with rfl | rfl
  · exact bottomKind_of_some _ _ _ h
  · exact h

theorem pstep_outer (st st' : PState) (tok : Token) (k : Bool)
    (h : pstep st tok = some st') (hk : outer st = some k) : outer st' = some k := by
  cases st with
  | value stack =>
    cases tok <;> simp only [pstep, Option.some.injEq] at h <;>
      first
      | exact Option.noConfusion h
      | (subst h; exact outer_complete_of _ _ none k hk (Or.inl rfl))
      | (subst h; exact bottomKind_of_some _ _ _ hk)
  | arrFirst stack =>
    cases tok <;> simp only [pstep, Option.some.injEq] at h <;>
      first
      | exact Option.noConfusion h
      | (subst h; exact outer_complete_of _ _ (some false) k hk (Or.inr rfl))
      | (subst h; exact hk)
  | inArr items stack =>
    cases tok <;> simp only [pstep, Option.some.injEq] at h <;>
      first
      | exact Option.noConfusion h
      | (subst h; exact outer_complete_of _ _ (some false) k hk (Or.inr rfl))
      | (subst h; exact hk)
  | objFirst stack =>
    cases tok with
    | rbrace =>
      simp only [pstep, Option.some.injEq] at h
      subst h; exact outer_complete_of _ _ (some true) k hk (Or.inr rfl)
    | scalar v =>
      cases v <;> simp only [pstep, Option.some.injEq] at h <;>
        first
        | exact Option.noConfusion h
        | (subst h; exact hk)
    | _ => simp only [pstep] at h; exact Option.noConfusion h
  | objKey props stack =>
    cases tok with
    | scalar v =>
      cases v <;> simp only [pstep, Option.some.injEq] at h <;>
        first
        | exact Option.noConfusion h
        | (subst h; exact hk)
    | _ => simp only [pstep] at h; exact Option.noConfusion h
  | objColon props key stack =>
    cases tok <;> simp only [pstep, Option.some.injEq] at h <;>
      first
      | exact Option.noConfusion h
      | (subst h; exact hk)
  | inObj props stack =>
    cases tok <;> simp only [pstep, Option.some.injEq] at h <;>
      first
      | exact Option.noConfusion h
      | (subst h; exact outer_complete_of _ _ (some true) k hk (Or.inr rfl))
      | (subst h; exact hk)
  | done v =>
    cases tok <;> simp only [pstep] at h <;> exact Option.noConfusion h

theorem feed_outer (toks : List Token) (p p' : PState) (k : Bool)
    (h : feed p toks = some p') (hk : outer p = some k) : outer p' = some k := by
  induction toks generalizing p with
  | nil =>
    simp only [feed, List.foldlM, pure, Option.some.injEq] at h
    subst h; exact hk
  | cons t ts ih =>
    simp only [feed, List.foldlM_cons] at h
    cases hp : pstep p t with
    | none => rw [hp] at h; simp at h
    | some p1 =>
      rw [hp] at h
      exact ih p1 h (pstep_outer p p1 t k hp hk)

theorem jsonStep_outer (st st' : LexState × PState) (c : Nat) (k : Bool)
    (h : jsonStep st c = some st') (hk : outer st.2 = some k) : outer st'.2 = some k := by
  simp only [jsonStep] at h
  split at h
  · exact Option.noConfusion h
  · split at h
    · exact Option.noConfusion h
    · rename_i hf
      simp only [Option.some.injEq] at h
      subst h
      exact feed_outer _ _ _ k hf hk

theorem foldlM_jsonStep_outer (text : JSString) (st st' : LexState × PState) (k : Bool)
    (h : text.foldlM jsonStep st = some st') (hk : outer st.2 = some k) :
    outer st'.2 = some k := by
  induction text generalizing st with
  | nil =>
    simp only [List.foldlM, pure, Option.some.injEq] at h
    subst h; exact hk
  | cons c rest ih =>
    simp only [List.foldlM_cons] at h
    cases hs : jsonStep st c with
    | none => rw [hs] at h; simp at h
    | some s1 =>
      rw [hs] at h
      exact ih s1 h (jsonStep_outer st s1 c k hs hk)

theorem jsonEnd_outer (st : LexState × PState) (v : JSValue) (k : Bool)
    (h : jsonEnd st = some v) (hk : outer st.2 = some k) : kindOf v = some k := by
  simp only [jsonEnd] at h
  split at h
  · exact Option.noConfusion h
  · split at h
    · rename_i hf
      simp only [Option.some.injEq] at h
      subst h
      exact feed_outer _ _ _ k hf hk
    · exact Option.noConfusion h

theorem JSONparse_kind (c : Nat) (rest : JSString) (v : JSValue)
    (h : JSONparse (c :: rest) = some v) :
    (c = 123 → kindOf v = some true) ∧ (c = 91 → kindOf v = some false) := by
  simp only [JSONparse, List.foldlM_cons] at h
  constructor
  · rintro rfl
    have h0 : jsonStep (.start, .value []) 123 = some (.start, .objFirst []) := rfl
    rw [h0] at h
    simp only [Option.bind_eq_bind, Option.some_bind] at h
    split at h
    · exact Option.noConfusion h
    · rename_i st hst
      exact jsonEnd_outer st v true h (foldlM_jsonStep_outer rest _ st true hst rfl)
  · rintro rfl
    have h0 : jsonStep (.start, .value []) 91 = some (.start, .arrFirst []) := rfl
    rw [h0] at h
    simp only [Option.bind_eq_bind, Option.some_bind] at h
    split at h
    · exact Option.noConfusion h
    · rename_i st hst
      exact jsonEnd_outer st v false h (foldlM_jsonStep_outer rest _ st false hst rfl)

/-! ### `parseJSONSafe` -/

theorem spanAt_head (s m : JSString) (h : spanAt s = some m) :
    ∃ c t, m = c :: t ∧ (c = 123 ∨ c = 91) := by
  cases s with
  | nil => simp [spanAt] at h
  | cons c rest =>
    simp only [spanAt] at h
    split at h
    · rename_i hc
      simp only [Option.some.injEq] at h
      exact ⟨c, _, h.symm, Or.inl hc.1⟩
    · split at h
      · rename_i hc
        simp only [Option.some.injEq] at h
        exact ⟨c, _, h.symm, Or.inr hc.1⟩
      · exact Option.noConfusion h

theorem matchSpan_head (s m : JSString) (h : matchSpan s = some m) :
    ∃ c t, m = c :: t ∧ (c = 123 ∨ c = 91) := by
  induction s with
  | nil => simp [matchSpan] at h
  | cons c rest ih =>
    simp only [matchSpan] at h
    split at h
    · rename_i m' hm
      simp only [Option.some.injEq] at h
      subst h
      exact spanAt_head _ _ hm
    · exact ih h

theorem commaFix_cons_skip (c : Nat) (t : JSString) (hc : c ≠ 44) :
    replaceGlobal commaAt 0 (c :: t) = c :: replaceGlobal commaAt 0 t := by
  have : commaAt (c :: t) = none := by simp [commaAt, hc]
  simp only [replaceGlobal, this]

theorem parseJSONSafe_of_parse (raw : JSString) (v : JSValue) (h : JSONparse raw = some v) :
    parseJSONSafe raw = v := by
  unfold parseJSONSafe
  split
  · rename_i h0
    rw [h0] at h
    exact Option.noConfusion h
  · rw [h]

theorem parseJSONSafe_of_fail (raw : JSString) (h : JSONparse raw = none) :
    parseJSONSafe raw = .null ∨ isPlainObject (parseJSONSafe raw) = true ∨
      isArray (parseJSONSafe raw) = true := by
  unfold parseJSONSafe
  split
  · exact Or.inl rfl
  · rw [h]
    simp only
    split
    · exact Or.inl rfl
    · rename_i m hm
      obtain ⟨c, t, rfl, hc⟩ := matchSpan_head _ _ hm
      have hc44 : c ≠ 44 := by rcases hc with rfl | rfl <;> decide
      rw [commaFix_cons_skip c t hc44]
      split
      · rename_i v hv
        have hk := JSONparse_kind c _ v hv
        rcases hc with rfl | rfl
        · have := hk.1 rfl
          right; left
          cases v <;> simp [kindOf] at this
          rfl
        · have := hk.2 rfl
          right; right
          cases v <;> simp [kindOf] at this
          rfl
      · exact Or.inl rfl

/-- C10 (as amended): for every string `raw`, `parseJSONSafe(raw)` returns a
value and throws nothing. When `JSON.parse(raw)` succeeds, the result is the
value it parsed, whatever its kind; when it throws, the result is `null`, an
object or an array. -/
theorem parseJSONSafe_shape (raw : JSString) :
    (∀ v, JSONparse raw = some v → parseJSONSafe raw = v) ∧
    (JSONparse raw = none →
      parseJSONSafe raw = .null ∨ isPlainObject (parseJSONSafe raw) = true ∨
        isArray (parseJSONSafe raw) = true) :=
  ⟨parseJSONSafe_of_parse raw, parseJSONSafe_of_fail raw⟩

/-- C10, witness: the text `true` gives the boolean that `JSON.parse` gives, and
a text that is not JSON as a whole gives `null`, an object or an array. -/
theorem parseJSONSafe_shape_witness :
    parseJSONSafe (lit "true") = .bool true ∧
    (parseJSONSafe (lit "x [1,] y") = .null ∨
      isPlainObject (parseJSONSafe (lit "x [1,] y")) = true ∨
      isArray (parseJSONSafe (lit "x [1,] y")) = true) :=
  ⟨(parseJSONSafe_shape (lit "true")).1 (.bool true) rfl,
    (parseJSONSafe_shape (lit "x [1,] y")).2 rfl⟩

/-- C10, counterexample: for the text `42` the result is the number 42, a
scalar: neither `null`, nor an object, nor an array. -/
theorem parseJSONSafe_scalar_counterexample :
    parseJSONSafe (lit "42") = .num (JSNumber.ofNat 42) ∧
    isScalar (parseJSONSafe (lit "42")) = true ∧
    parseJSONSafe (lit "42") ≠ .null ∧
    isPlainObject (parseJSONSafe (lit "42")) = false ∧
    isArray (parseJSONSafe (lit "42")) = false := by
  refine ⟨rfl, rfl, ?_, rfl, rfl⟩
  intro h
  have h2 : parseJSONSafe (lit "42") = .num (JSNumber.ofNat 42) := rfl
  rw [h2] at h
  exact JSValue.noConfusion h

/-! ### The strict parser on text without an opening brace or bracket -/

theorem ite_peel {c : Prop} [Decidable c] {l0 l : LexState} {t0 toks : List Token}
    {b : Option (LexState × List Token)} {goal : Prop}
    (h : (if c then some (l0, t0) else b) = some (l, toks))
    (ha : ∀ t ∈ t0, isOpen t = false) (hb : lexOK l0 = true)
    (hgoal : ((∀ t ∈ toks, isOpen t = false) ∧ lexOK l = true) → goal)
    (k : b = some (l, toks) → goal) : goal := by
  by_cases hc : c
  · rw [if_pos hc] at h
    simp only [Option.some.injEq, Prod.mk.injEq] at h
    obtain ⟨rfl, rfl⟩ := h
    exact hgoal ⟨ha, hb⟩
  · rw [if_neg hc] at h
    exact k h

theorem ite_peel_none {c : Prop} [Decidable c] {x : LexState × List Token}
    {b : Option (LexState × List Token)} {goal : Prop}
    (h : (if c then none else b) = some x) (k : b = some x → goal) : goal := by
  by_cases hc : c
  · rw [if_pos hc] at h; exact Option.noConfusion h
  · rw [if_neg hc] at h; exact k h

theorem ite_peel_neg {c : Prop} [Decidable c] {x : LexState × List Token}
    {a b : Option (LexState × List Token)} {goal : Prop}
    (h : (if c then a else b) = some x) (hc : ¬c) (k : b = some x → goal) : goal := by
  rw [if_neg hc] at h; exact k h

theorem lexStart_noOpen (c : Nat) (l : LexState) (toks : List Token)
    (h : lexStart c = some (l, toks)) (h1 : c ≠ 123) (h2 : c ≠ 91) :
    (∀ t ∈ toks, isOpen t = false) ∧ lexOK l = true := by
  unfold lexStart at h
  refine ite_peel h (by decide) rfl id (fun h => ?_)
  refine ite_peel_neg h h1 (fun h => ?_)
  refine ite_peel h (by decide) rfl id (fun h => ?_)
  refine ite_peel_neg h h2 (fun h => ?_)
  iterate 10 refine ite_peel h (by decide) rfl id (fun h => ?_)
  exact Option.noConfusion h

theorem lexNumEnd_noOpen (a : NumAcc) (c : Nat) (l : LexState) (toks : List Token)
    (h : lexNumEnd a c = some (l, toks)) (h1 : c ≠ 123) (h2 : c ≠ 91) :
    (∀ t ∈ toks, isOpen t = false) ∧ lexOK l = true := by
  unfold lexNumEnd at h
  cases hs : lexStart c with
  | none => rw [hs] at h; exact Option.noConfusion h
  | some r =>
    obtain ⟨st, ts⟩ := r
    rw [hs] at h
    simp only [Option.some.injEq, Prod.mk.injEq] at h
    obtain ⟨rfl, rfl⟩ := h
    have := lexStart_noOpen c st ts hs h1 h2
    refine ⟨?_, this.2⟩
    intro t ht
    rcases List.mem_cons.1 ht with rfl | ht
    · rfl
    · exact this.1 t ht

theorem lexNum_noOpen (phase : NumPhase) (a : NumAcc) (c : Nat) (l : LexState)
    (toks : List Token) (h : lexNum phase a c = some (l, toks)) (h1 : c ≠ 123) (h2 : c ≠ 91) :
    (∀ t ∈ toks, isOpen t = false) ∧ lexOK l = true := by
  cases phase <;> simp only [lexNum] at h
  · refine ite_peel h (by decide) rfl id (fun h => ?_)
    refine ite_peel h (by decide) rfl id (fun h => ?_)
    exact Option.noConfusion h
  · refine ite_peel h (by decide) rfl id (fun h => ?_)
    refine ite_peel h (by decide) rfl id (fun h => ?_)
    refine ite_peel_none h (fun h => ?_)
    exact lexNumEnd_noOpen a c l toks h h1 h2
  · refine ite_peel h (by decide) rfl id (fun h => ?_)
    refine ite_peel h (by decide) rfl id (fun h => ?_)
    refine ite_peel h (by decide) rfl id (fun h => ?_)
    exact lexNumEnd_noOpen a c l toks h h1 h2
  · refine ite_peel h (by decide) rfl id (fun h => ?_)
    exact Option.noConfusion h
  · refine ite_peel h (by decide) rfl id (fun h => ?_)
    refine ite_peel h (by decide) rfl id (fun h => ?_)
    exact lexNumEnd_noOpen a c l toks h h1 h2
  · refine ite_peel h (by decide) rfl id (fun h => ?_)
    refine ite_peel h (by decide) rfl id (fun h => ?_)
    refine ite_peel h (by decide) rfl id (fun h => ?_)
    exact Option.noConfusion h
  · refine ite_peel h (by decide) rfl id (fun h => ?_)
    exact Option.noConfusion h
  · refine ite_peel h (by decide) rfl id (fun h => ?_)
    exact lexNumEnd_noOpen a c l toks h h1 h2

theorem lexStep_noOpen (st : LexState) (c : Nat) (l : LexState) (toks : List Token)
    (h : lexStep st c = some (l, toks)) (hok : lexOK st = true) (h1 : c ≠ 123) (h2 : c ≠ 91) :
    (∀ t ∈ toks, isOpen t = false) ∧ lexOK l = true := by
  cases st with
  | start => exact lexStart_noOpen c l toks h h1 h2
  | str acc =>
    simp only [lexStep] at h
    refine ite_peel h (by intro t ht; simp only [List.mem_singleton] at ht; subst ht; rfl)
      rfl id (fun h => ?_)
    refine ite_peel h (by decide) rfl id (fun h => ?_)
    refine ite_peel_none h (fun h => ?_)
    simp only [Option.some.injEq, Prod.mk.injEq] at h
    obtain ⟨rfl, rfl⟩ := h
    exact ⟨by decide, rfl⟩
  | esc acc =>
    simp only [lexStep] at h
    iterate 7 refine ite_peel h (by decide) rfl id (fun h => ?_)
    exact Option.noConfusion h
  | hex acc n v =>
    simp only [lexStep] at h
    cases hd : hexVal c with
    | none => rw [hd] at h; exact Option.noConfusion h
    | some d =>
      rw [hd] at h
      simp only at h
      refine ite_peel h (by decide) rfl id (fun h => ?_)
      simp only [Option.some.injEq, Prod.mk.injEq] at h
      obtain ⟨rfl, rfl⟩ := h
      exact ⟨by decide, rfl⟩
  | word rest v =>
    cases rest with
    | nil => simp only [lexStep] at h; exact Option.noConfusion h
    | cons x more =>
      simp only [lexStep] at h
      have hmore : lexOK (.word more v) = true := by
        simp only [lexOK, List.contains_cons, Bool.not_eq_true', Bool.or_eq_false_iff] at hok
        simp only [lexOK, hok.2, Bool.not_false]
      by_cases hc : c = x
      · rw [if_pos hc] at h
        refine ite_peel h (by intro t ht; simp only [List.mem_singleton] at ht; subst ht; rfl)
          rfl id (fun h => ?_)
        simp only [Option.some.injEq, Prod.mk.injEq] at h
        obtain ⟨rfl, rfl⟩ := h
        exact ⟨by decide, hmore⟩
      · rw [if_neg hc] at h; exact Option.noConfusion h
  | num phase a => exact lexNum_noOpen phase a c l toks h h1 h2

theorem pstep_atTop (p p' : PState) (tok : Token) (h : pstep p tok = some p')
    (hp : atTop p = true) (ht : isOpen tok = false) : atTop p' = true := by
  cases p with
  | value stack =>
    cases stack with
    | nil =>
      cases tok <;> simp only [pstep, Option.some.injEq] at h <;>
        first
        | exact Option.noConfusion h
        | (subst h; rfl)
        | exact Bool.noConfusion ht
    | cons f s => exact Bool.noConfusion hp
  | done v => cases tok <;> simp only [pstep] at h <;> exact Option.noConfusion h
  | _ => exact Bool.noConfusion hp

theorem feed_atTop (toks : List Token) (p p' : PState) (h : feed p toks = some p')
    (hp : atTop p = true) (ht : ∀ t ∈ toks, isOpen t = false) : atTop p' = true := by
  induction toks generalizing p with
  | nil =>
    simp only [feed, List.foldlM, pure, Option.some.injEq] at h
    subst h; exact hp
  | cons t ts ih =>
    simp only [feed, List.foldlM_cons] at h
    cases hs : pstep p t with
    | none => rw [hs] at h; simp at h
    | some p1 =>
      rw [hs] at h
      exact ih p1 h (pstep_atTop p p1 t hs hp (ht t (List.mem_cons_self _ _)))
        (fun t' ht' => ht t' (List.mem_cons_of_mem _ ht'))

theorem jsonStep_atTop (st st' : LexState × PState) (c : Nat)
    (h : jsonStep st c = some st') (hl : lexOK st.1 = true) (hp : atTop st.2 = true)
    (h1 : c ≠ 123) (h2 : c ≠ 91) : lexOK st'.1 = true ∧ atTop st'.2 = true := by
  simp only [jsonStep] at h
  split at h
  · exact Option.noConfusion h
  · rename_i l toks hlex
    have hno := lexStep_noOpen st.1 c l toks hlex hl h1 h2
    split at h
    · exact Option.noConfusion h
    · rename_i p hf
      simp only [Option.some.injEq] at h
      subst h
      exact ⟨hno.2, feed_atTop toks st.2 p hf hp hno.1⟩

theorem foldlM_jsonStep_atTop (text : JSString) (st st' : LexState × PState)
    (h : text.foldlM jsonStep st = some st') (hl : lexOK st.1 = true)
    (hp : atTop st.2 = true) (hno : ∀ c ∈ text, c ≠ 123 ∧ c ≠ 91) :
    lexOK st'.1 = true ∧ atTop st'.2 = true := by
  induction text generalizing st with
  | nil =>
    simp only [List.foldlM, pure, Option.some.injEq] at h
    subst h; exact ⟨hl, hp⟩
  | cons c rest ih =>
    simp only [List.foldlM_cons] at h
    cases hs : jsonStep st c with
    | none => rw [hs] at h; simp at h
    | some s1 =>
      rw [hs] at h
      have hc := hno c (List.mem_cons_self _ _)
      have h1 := jsonStep_atTop st s1 c hs hl hp hc.1 hc.2
      exact ih s1 h h1.1 h1.2 (fun d hd => hno d (List.mem_cons_of_mem _ hd))

theorem atTop_cases (p : PState) (hp : atTop p = true) :
    p = .value [] ∨ ∃ v, p = .done v := by
  cases p with
  | value stack =>
    cases stack with
    | nil => exact Or.inl rfl
    | cons f s => exact Bool.noConfusion hp
  | done v => exact Or.inr ⟨v, rfl⟩
  | _ => exact Bool.noConfusion hp

theorem word_brace (x : Nat) (more : JSString) (v : JSValue) (p : PState)
    (hl : lexOK (.word (x :: more) v) = true) :
    jsonStep (.word (x :: more) v, p) 123 = none := by
  have hx : ¬ (123 = x) := by
    simp only [lexOK, List.contains_cons, Bool.not_eq_true', Bool.or_eq_false_iff,
      beq_eq_false_iff_ne] at hl
    exact hl.1
  simp only [jsonStep, lexStep, if_neg hx]

/-- The strict parser, wherever its lexer stands and with nothing but scalars
read so far, fails on the code units of the text `{"a":1,}`. -/
theorem core_fails (l : LexState) (p : PState) (hl : lexOK l = true) (hp : atTop p = true) :
    List.foldlM jsonStep (l, p) [123, 34, 97, 34, 58, 49, 44, 125] = none := by
  rcases atTop_cases p hp with rfl | ⟨w, rfl⟩
  · cases l with
    | start => rfl
    | str acc => rfl
    | esc acc => rfl
    | hex acc n v => rfl
    | word rest v =>
      cases rest with
      | nil => rfl
      | cons x more => rw [List.foldlM_cons, word_brace x more v _ hl]; rfl
    | num phase a => cases phase <;> rfl
  · cases l with
    | start => rfl
    | str acc => rfl
    | esc acc => rfl
    | hex acc n v => rfl
    | word rest v =>
      cases rest with
      | nil => rfl
      | cons x more => rw [List.foldlM_cons, word_brace x more v _ hl]; rfl
    | num phase a => cases phase <;> rfl

theorem JSONparse_around_core (pre suf : JSString) (hpre : ∀ c ∈ pre, c ≠ 123 ∧ c ≠ 91) :
    JSONparse (pre ++ ([123, 34, 97, 34, 58, 49, 44, 125] ++ suf)) = none := by
  unfold JSONparse
  rw [List.foldlM_append]
  cases h1 : List.foldlM jsonStep (.start, .value []) pre with
  | none => rfl
  | some st =>
    have hst := foldlM_jsonStep_atTop pre _ st h1 rfl rfl hpre
    obtain ⟨l, p⟩ := st
    simp only [bind, Option.bind]
    rw [List.foldlM_append, core_fails l p hst.1 hst.2]
    rfl

theorem dropWhile_append_all (p : Nat → Bool) (l1 l2 : JSString) (h : ∀ c ∈ l1, p c = true) :
    (l1 ++ l2).dropWhile p = l2.dropWhile p := by
  induction l1 with
  | nil => rfl
  | cons a l ih =>
    rw [List.cons_append, List.dropWhile_cons_of_pos (h a (List.mem_cons_self _ _))]
    exact ih (fun c hc => h c (List.mem_cons_of_mem _ hc))

theorem upToLast_append (d : Nat) (body suf : JSString) (hsuf : ∀ c ∈ suf, c ≠ d) :
    upToLast d (body ++ d :: suf) = body ++ [d] := by
  unfold upToLast
  rw [List.reverse_append, List.reverse_cons, List.append_assoc,
    dropWhile_append_all _ suf.reverse]
  · simp
  · intro c hc
    simp only [bne_iff_ne, ne_eq]
    exact hsuf c (List.mem_reverse.1 hc)

theorem matchSpan_skip (pre rest : JSString) (hpre : ∀ c ∈ pre, c ≠ 123 ∧ c ≠ 91) :
    matchSpan (pre ++ rest) = matchSpan rest := by
  induction pre with
  | nil => rfl
  | cons a l ih =>
    have ha := hpre a (List.mem_cons_self _ _)
    have : spanAt (a :: (l ++ rest)) = none := by
      simp [spanAt, ha.1, ha.2]
    rw [List.cons_append]
    simp only [matchSpan, this]
    exact ih (fun c hc => hpre c (List.mem_cons_of_mem _ hc))

theorem matchSpan_braces (body suf : JSString) (hsuf : ∀ c ∈ suf, c ≠ 125) :
    matchSpan (123 :: (body ++ 125 :: suf)) = some (123 :: (body ++ [125])) := by
  have : spanAt (123 :: (body ++ 125 :: suf)) = some (123 :: upToLast 125 (body ++ 125 :: suf)) := by
    simp [spanAt]
  simp only [matchSpan, this, upToLast_append 125 body suf hsuf]

/-- C7: surrounding prose, markdown fences and a trailing comma are tolerated
together: for every text before and after that contains none of `{`, `}`, `[`,
`]`, `parseJSONSafe` applied to that text around `{"a":1,}` returns the
object `{a: 1}`. -/
theorem parseJSONSafe_tolerant (pre suf : JSString)
    (hpre : ∀ c ∈ pre, c ≠ 123 ∧ c ≠ 125 ∧ c ≠ 91 ∧ c ≠ 93)
    (hsuf : ∀ c ∈ suf, c ≠ 123 ∧ c ≠ 125 ∧ c ≠ 91 ∧ c ≠ 93) :
    parseJSONSafe (pre ++ lit "\x7b\"a\":1,\x7d" ++ suf) =
      .obj [(lit "a", .num (JSNumber.ofNat 1))] := by
  have hcore : lit "\x7b\"a\":1,\x7d" = [123, 34, 97, 34, 58, 49, 44, 125] := by decide
  have hpre' : ∀ c ∈ pre, c ≠ 123 ∧ c ≠ 91 := fun c hc => ⟨(hpre c hc).1, (hpre c hc).2.2.1⟩
  rw [hcore, List.append_assoc]
  have hfail := JSONparse_around_core pre suf hpre'
  have hne : pre ++ ([123, 34, 97, 34, 58, 49, 44, 125] ++ suf) ≠ [] := by simp
  have hspan : matchSpan (pre ++ ([123, 34, 97, 34, 58, 49, 44, 125] ++ suf)) =
      some [123, 34, 97, 34, 58, 49, 44, 125] := by
    rw [matchSpan_skip pre _ hpre']
    exact matchSpan_braces [34, 97, 34, 58, 49, 44] suf (fun c hc => (hsuf c hc).2.1)
  unfold parseJSONSafe
  rw [if_neg hne, hfail]
  simp only [hspan]
  rfl

/-- C7, witness: the text of the example, with prose and an opening fence
before `{"a":1,}` and a closing fence after it, gives the object `{a: 1}`. -/
theorem parseJSONSafe_tolerant_witness :
    parseJSONSafe (lit "Here is your answer:\n```json\n" ++ lit "\x7b\"a\":1,\x7d" ++
        lit "\n```") = .obj [(lit "a", .num (JSNumber.ofNat 1))] ∧
    lit "Here is your answer:\n```json\n" ++ lit "\x7b\"a\":1,\x7d" ++ lit "\n```" =
      lit "Here is your answer:\n```json\n\x7b\"a\":1,\x7d\n```" :=
  ⟨parseJSONSafe_tolerant (lit "Here is your answer:\n```json\n") (lit "\n```")
      (by decide) (by decide), by decide⟩

/-! ### The lexer, one code unit at a time -/

theorem ite_split {α : Type} {c : Prop} [Decidable c] {a b : Option α} {x : α} {goal : Prop}
    (h : (if c then a else b) = some x)
    (k1 : c → a = some x → goal) (k2 : ¬c → b = some x → goal) : goal := by
  by_cases hc : c
  · rw [if_pos hc] at h; exact k1 hc h
  · rw [if_neg hc] at h; exact k2 hc h

/-- What one code unit read between tokens does: white space is skipped, a
punctuation mark is a token, anything else starts a scalar. -/
theorem lexStart_spec (c : Nat) (l : LexState) (toks : List Token)
    (h : lexStart c = some (l, toks)) :
    (toks = [] ∧ l = .start ∧ isJsonWs c = true) ∨
    (l = .start ∧ isJsonWs c = false ∧
      ((c = 123 ∧ toks = [.lbrace]) ∨ (c = 125 ∧ toks = [.rbrace]) ∨
       (c = 91 ∧ toks = [.lbracket]) ∨ (c = 93 ∧ toks = [.rbracket]) ∨
       (c = 58 ∧ toks = [.colon]) ∨ (c = 44 ∧ toks = [.comma]))) ∨
    (toks = [] ∧ isStart l = false ∧ lexScalar l = true ∧ isJsonWs c = false ∧
      c ≠ 123 ∧ c ≠ 125 ∧ c ≠ 91 ∧ c ≠ 93) := by
  unfold lexStart at h
  refine ite_split h (fun hw h => ?_) (fun hw h => ?_)
  · simp only [Option.some.injEq, Prod.mk.injEq] at h
    exact Or.inl ⟨h.2.symm, h.1.symm, hw⟩
  have hw' : isJsonWs c = false := by simpa using hw
  refine ite_split h (fun hc h => ?_) (fun h1 h => ?_)
  · simp only [Option.some.injEq, Prod.mk.injEq] at h
    exact Or.inr (Or.inl ⟨h.1.symm, hw', Or.inl ⟨hc, h.2.symm⟩⟩)
  refine ite_split h (fun hc h => ?_) (fun h2 h => ?_)
  · simp only [Option.some.injEq, Prod.mk.injEq] at h
    exact Or.inr (Or.inl ⟨h.1.symm, hw', Or.inr (Or.inl ⟨hc, h.2.symm⟩)⟩)
  refine ite_split h (fun hc h => ?_) (fun h3 h => ?_)
  · simp only [Option.some.injEq, Prod.mk.injEq] at h
    exact Or.inr (Or.inl ⟨h.1.symm, hw', Or.inr (Or.inr (Or.inl ⟨hc, h.2.symm⟩))⟩)
  refine ite_split h (fun hc h => ?_) (fun h4 h => ?_)
  · simp only [Option.some.injEq, Prod.mk.injEq] at h
    exact Or.inr (Or.inl ⟨h.1.symm, hw', Or.inr (Or.inr (Or.inr (Or.inl ⟨hc, h.2.symm⟩)))⟩)
  refine ite_split h (fun hc h => ?_) (fun _ h => ?_)
  · simp only [Option.some.injEq, Prod.mk.injEq] at h
    exact Or.inr (Or.inl ⟨h.1.symm, hw',
      Or.inr (Or.inr (Or.inr (Or.inr (Or.inl ⟨hc, h.2.symm⟩))))⟩)
  refine ite_split h (fun hc h => ?_) (fun _ h => ?_)
  · simp only [Option.some.injEq, Prod.mk.injEq] at h
    exact Or.inr (Or.inl ⟨h.1.symm, hw',
      Or.inr (Or.inr (Or.inr (Or.inr (Or.inr ⟨hc, h.2.symm⟩))))⟩)
  have fin : ∀ l0 : LexState, some (l0, ([] : List Token)) = some (l, toks) →
      isStart l0 = false → lexScalar l0 = true →
      (toks = [] ∧ isStart l = false ∧ lexScalar l = true ∧ isJsonWs c = false ∧
        c ≠ 123 ∧ c ≠ 125 ∧ c ≠ 91 ∧ c ≠ 93) := by
    intro l0 he ha hb
    simp only [Option.some.injEq, Prod.mk.injEq] at he
    obtain ⟨rfl, rfl⟩ := he
    exact ⟨rfl, ha, hb, hw', h1, h2, h3, h4⟩
  refine ite_split h (fun _ h => Or.inr (Or.inr (fin _ h rfl rfl))) (fun _ h => ?_)
  refine ite_split h (fun _ h => Or.inr (Or.inr (fin _ h rfl rfl))) (fun _ h => ?_)
  refine ite_split h (fun _ h => Or.inr (Or.inr (fin _ h rfl rfl))) (fun _ h => ?_)
  refine ite_split h (fun _ h => Or.inr (Or.inr (fin _ h rfl rfl))) (fun _ h => ?_)
  refine ite_split h (fun _ h => Or.inr (Or.inr (fin _ h rfl rfl))) (fun _ h => ?_)
  refine ite_split h (fun _ h => Or.inr (Or.inr (fin _ h rfl rfl))) (fun _ h => ?_)
  refine ite_split h (fun _ h => Or.inr (Or.inr (fin _ h rfl rfl))) (fun _ h => ?_)
  exact Option.noConfusion h

theorem lexNumEnd_spec (a : NumAcc) (c : Nat) (l : LexState) (toks : List Token)
    (h : lexNumEnd a c = some (l, toks)) :
    ∃ t1, toks = .scalar (.num a.value) :: t1 ∧ lexStart c = some (l, t1) := by
  unfold lexNumEnd at h
  cases hs : lexStart c with
  | none => rw [hs] at h; exact Option.noConfusion h
  | some r =>
    obtain ⟨st, ts⟩ := r
    rw [hs] at h
    simp only [Option.some.injEq, Prod.mk.injEq] at h
    exact ⟨ts, h.2.symm, by rw [h.1]⟩

/-- What one code unit read inside a scalar does: the scalar goes on, or it is
complete and is a token, or (for a number) it is complete and the code unit is
read between tokens. -/
theorem lexMid_spec (st : LexState) (c : Nat) (l : LexState) (toks : List Token)
    (h : lexStep st c = some (l, toks)) (hst : isStart st = false)
    (hsc : lexScalar st = true) :
    (toks = [] ∧ isStart l = false ∧ lexScalar l = true) ∨
    (∃ v, toks = [.scalar v] ∧ kindOf v = none ∧ l = .start) ∨
    (∃ v t1, toks = .scalar v :: t1 ∧ kindOf v = none ∧ lexStart c = some (l, t1)) := by
  have mid : ∀ l0 : LexState, some (l0, ([] : List Token)) = some (l, toks) →
      isStart l0 = false → lexScalar l0 = true →
      (toks = [] ∧ isStart l = false ∧ lexScalar l = true) ∨
      (∃ v, toks = [.scalar v] ∧ kindOf v = none ∧ l = .start) ∨
      (∃ v t1, toks = .scalar v :: t1 ∧ kindOf v = none ∧ lexStart c = some (l, t1)) := by
    intro l0 he ha hb
    simp only [Option.some.injEq, Prod.mk.injEq] at he
    obtain ⟨rfl, rfl⟩ := he
    exact Or.inl ⟨rfl, ha, hb⟩
  have fin : ∀ v : JSValue, some (LexState.start, [Token.scalar v]) = some (l, toks) →
      kindOf v = none →
      (toks = [] ∧ isStart l = false ∧ lexScalar l = true) ∨
      (∃ v, toks = [.scalar v] ∧ kindOf v = none ∧ l = .start) ∨
      (∃ v t1, toks = .scalar v :: t1 ∧ kindOf v = none ∧ lexStart c = some (l, t1)) := by
    intro v he hv
    simp only [Option.some.injEq, Prod.mk.injEq] at he
    obtain ⟨rfl, rfl⟩ := he
    exact Or.inr (Or.inl ⟨v, rfl, hv, rfl⟩)
  have numEnd : ∀ a : NumAcc, lexNumEnd a c = some (l, toks) →
      (toks = [] ∧ isStart l = false ∧ lexScalar l = true) ∨
      (∃ v, toks = [.scalar v] ∧ kindOf v = none ∧ l = .start) ∨
      (∃ v t1, toks = .scalar v :: t1 ∧ kindOf v = none ∧ lexStart c = some (l, t1)) := by
    intro a he
    obtain ⟨t1, h1, h2⟩ := lexNumEnd_spec a c l toks he
    exact Or.inr (Or.inr ⟨_, t1, h1, rfl, h2⟩)
  cases st with
  | start => exact Bool.noConfusion hst
  | str acc =>
    simp only [lexStep] at h
    refine ite_split h (fun _ h => fin _ h rfl) (fun _ h => ?_)
    refine ite_split h (fun _ h => mid _ h rfl rfl) (fun _ h => ?_)
    refine ite_split h (fun _ h => Option.noConfusion h) (fun _ h => mid _ h rfl rfl)
  | esc acc =>
    simp only [lexStep] at h
    iterate 7 refine ite_split h (fun _ h => mid _ h rfl rfl) (fun _ h => ?_)
    exact Option.noConfusion h
  | hex acc n v =>
    simp only [lexStep] at h
    cases hd : hexVal c with
    | none => rw [hd] at h; exact Option.noConfusion h
    | some d =>
      rw [hd] at h
      simp only at h
      exact ite_split h (fun _ h => mid _ h rfl rfl) (fun _ h => mid _ h rfl rfl)
  | word rest v =>
    cases rest with
    | nil => simp only [lexStep] at h; exact Option.noConfusion h
    | cons x more =>
      simp only [lexStep] at h
      have hv : kindOf v = none := by simpa [lexScalar] using hsc
      refine ite_split h (fun _ h => ?_) (fun _ h => Option.noConfusion h)
      exact ite_split h (fun _ h => fin _ h hv) (fun _ h => mid _ h rfl hsc)
  | num phase a =>
    cases phase <;> simp only [lexStep, lexNum] at h
    · refine ite_split h (fun _ h => mid _ h rfl rfl) (fun _ h => ?_)
      refine ite_split h (fun _ h => mid _ h rfl rfl) (fun _ h => Option.noConfusion h)
    · refine ite_split h (fun _ h => mid _ h rfl rfl) (fun _ h => ?_)
      refine ite_split h (fun _ h => mid _ h rfl rfl) (fun _ h => ?_)
      refine ite_split h (fun _ h => Option.noConfusion h) (fun _ h => numEnd a h)
    · refine ite_split h (fun _ h => mid _ h rfl rfl) (fun _ h => ?_)
      refine ite_split h (fun _ h => mid _ h rfl rfl) (fun _ h => ?_)
      refine ite_split h (fun _ h => mid _ h rfl rfl) (fun _ h => numEnd a h)
    · refine ite_split h (fun _ h => mid _ h rfl rfl) (fun _ h => Option.noConfusion h)
    · refine ite_split h (fun _ h => mid _ h rfl rfl) (fun _ h => ?_)
      refine ite_split h (fun _ h => mid _ h rfl rfl) (fun _ h => numEnd a h)
    · refine ite_split h (fun _ h => mid _ h rfl rfl) (fun _ h => ?_)
      refine ite_split h (fun _ h => mid _ h rfl rfl) (fun _ h => ?_)
      refine ite_split h (fun _ h => mid _ h rfl rfl) (fun _ h => Option.noConfusion h)
    · refine ite_split h (fun _ h => mid _ h rfl rfl) (fun _ h => Option.noConfusion h)
    · refine ite_split h (fun _ h => mid _ h rfl rfl) (fun _ h => numEnd a h)

/-! ### The parser, one token at a time -/

theorem complete_done (w v : JSValue) (stack : List Frame)
    (h : complete w stack = .done v) : stack = [] ∧ w = v := by
  cases stack with
  | nil =>
    simp only [complete, PState.done.injEq] at h
    exact ⟨rfl, h⟩
  | cons f s => cases f <;> simp [complete] at h

theorem pstep_done (p : PState) (t : Token) (v : JSValue) (h : pstep p t = some (.done v)) :
    (p = .value [] ∧ t = .scalar v) ∨ (t = .rbrace ∧ kindOf v = some true) ∨
      (t = .rbracket ∧ kindOf v = some false) := by
  cases p with
  | value stack =>
    cases t <;> simp only [pstep, Option.some.injEq] at h <;>
      first
      | exact Option.noConfusion h
      | exact PState.noConfusion h
      | (obtain ⟨rfl, rfl⟩ := complete_done _ _ _ h
         exact Or.inl ⟨rfl, rfl⟩)
  | arrFirst stack =>
    cases t <;> simp only [pstep, Option.some.injEq] at h <;>
      first
      | exact Option.noConfusion h
      | exact PState.noConfusion h
      | exact absurd (complete_done _ _ _ h).1 (List.cons_ne_nil _ _)
      | (obtain ⟨_, rfl⟩ := complete_done _ _ _ h
         exact Or.inr (Or.inr ⟨rfl, rfl⟩))
  | inArr items stack =>
    cases t <;> simp only [pstep, Option.some.injEq] at h <;>
      first
      | exact Option.noConfusion h
      | exact PState.noConfusion h
      | (obtain ⟨_, rfl⟩ := complete_done _ _ _ h
         exact Or.inr (Or.inr ⟨rfl, rfl⟩))
  | objFirst stack =>
    cases t with
    | rbrace =>
      simp only [pstep, Option.some.injEq] at h
      obtain ⟨_, rfl⟩ := complete_done _ _ _ h
      exact Or.inr (Or.inl ⟨rfl, rfl⟩)
    | scalar w =>
      cases w <;> simp only [pstep, Option.some.injEq] at h <;>
        first
        | exact Option.noConfusion h
        | exact PState.noConfusion h
    | _ => simp only [pstep] at h; exact Option.noConfusion h
  | objKey props stack =>
    cases t with
    | scalar w =>
      cases w <;> simp only [pstep, Option.some.injEq] at h <;>
        first
        | exact Option.noConfusion h
        | exact PState.noConfusion h
    | _ => simp only [pstep] at h; exact Option.noConfusion h
  | objColon props key stack =>
    cases t <;> simp only [pstep, Option.some.injEq] at h <;>
      first
      | exact Option.noConfusion h
      | exact PState.noConfusion h
  | inObj props stack =>
    cases t <;> simp only [pstep, Option.some.injEq] at h <;>
      first
      | exact Option.noConfusion h
      | exact PState.noConfusion h
      | (obtain ⟨_, rfl⟩ := complete_done _ _ _ h
         exact Or.inr (Or.inl ⟨rfl, rfl⟩))
  | done w => cases t <;> simp only [pstep] at h <;> exact Option.noConfusion h

theorem feed_nil (p : PState) : feed p [] = some p := rfl

theorem feed_cons (p : PState) (t : Token) (ts : List Token) :
    feed p (t :: ts) = (pstep p t).bind (fun p1 => feed p1 ts) := by
  simp only [feed, List.foldlM_cons]
  rfl

theorem pstep_of_done (v : JSValue) (t : Token) : pstep (.done v) t = none := by
  cases t <;> rfl

theorem feed_of_done (v : JSValue) (toks : List Token) (p : PState)
    (h : feed (.done v) toks = some p) : toks = [] ∧ p = .done v := by
  cases toks with
  | nil =>
    simp only [feed_nil, Option.some.injEq] at h
    exact ⟨rfl, h.symm⟩
  | cons t ts =>
    rw [feed_cons, pstep_of_done] at h
    exact Option.noConfusion h

theorem feed_single (p : PState) (t : Token) : feed p [t] = pstep p t := by
  rw [feed_cons]
  cases pstep p t <;> rfl

theorem lexStep_lexScalar (st : LexState) (c : Nat) (l : LexState) (toks : List Token)
    (h : lexStep st c = some (l, toks)) (hsc : lexScalar st = true) : lexScalar l = true := by
  have hstart : ∀ t1, lexStart c = some (l, t1) → lexScalar l = true := by
    intro t1 h1
    rcases lexStart_spec c l t1 h1 with ⟨_, rfl, _⟩ | ⟨rfl, _⟩ | ⟨_, _, hl, _⟩
    · rfl
    · rfl
    · exact hl
  cases hs : isStart st with
  | true =>
    cases st <;> simp only [isStart] at hs <;> try exact Bool.noConfusion hs
    exact hstart toks h
  | false =>
    rcases lexMid_spec st c l toks h hs hsc with ⟨_, _, hl⟩ | ⟨v, _, _, rfl⟩ | ⟨v, t1, _, _, h1⟩
    · exact hl
    · rfl
    · exact hstart t1 h1

/-! ### Texts that are one scalar -/

theorem jsonStep_eq (l : LexState) (p : PState) (c : Nat) (st' : LexState × PState)
    (h : jsonStep (l, p) c = some st') :
    ∃ toks, lexStep l c = some (st'.1, toks) ∧ feed p toks = some st'.2 := by
  simp only [jsonStep] at h
  cases hl : lexStep l c with
  | none => rw [hl] at h; exact Option.noConfusion h
  | some r =>
    obtain ⟨l1, toks⟩ := r
    rw [hl] at h
    simp only at h
    cases hf : feed p toks with
    | none => rw [hf] at h; exact Option.noConfusion h
    | some p1 =>
      rw [hf] at h
      simp only [Option.some.injEq] at h
      subst h
      exact ⟨toks, rfl, hf⟩

theorem feed_value_scalar (v : JSValue) (t1 : List Token) (p : PState)
    (h : feed (.value []) (.scalar v :: t1) = some p) : t1 = [] ∧ p = .done v := by
  rw [feed_cons] at h
  exact feed_of_done v t1 p h

theorem scalarOnly_start (c : Nat) (st' : LexState × PState)
    (h : jsonStep (.start, .value []) c = some st') (hw : isJsonWs c = false)
    (h1 : c ≠ 123) (h2 : c ≠ 91) : scalarOnly st' = true := by
  obtain ⟨toks, hl, hf⟩ := jsonStep_eq _ _ _ _ h
  obtain ⟨l, p⟩ := st'
  simp only at hl hf
  rcases lexStart_spec c l toks hl with ⟨_, _, hws⟩ | ⟨_, _, hc⟩ | ⟨rfl, hst, hsc, _⟩
  · rw [hws] at hw; exact Bool.noConfusion hw
  · rcases hc with ⟨hc, _⟩ | ⟨_, rfl⟩ | ⟨hc, _⟩ | ⟨_, rfl⟩ | ⟨_, rfl⟩ | ⟨_, rfl⟩
    · exact absurd hc h1
    · exact Option.noConfusion hf
    · exact absurd hc h2
    · exact Option.noConfusion hf
    · exact Option.noConfusion hf
    · exact Option.noConfusion hf
  · simp only [feed_nil, Option.some.injEq] at hf
    subst hf
    simp [scalarOnly, hst, hsc]

theorem scalarOnly_step (st st' : LexState × PState) (c : Nat)
    (h : jsonStep st c = some st') (hs : scalarOnly st = true) : scalarOnly st' = true := by
  obtain ⟨l, p⟩ := st
  obtain ⟨toks, hl, hf⟩ := jsonStep_eq _ _ _ _ h
  obtain ⟨l', p'⟩ := st'
  simp only at hl hf
  cases p with
  | done v =>
    obtain ⟨_, rfl⟩ := feed_of_done v toks p' hf
    exact hs
  | value stack =>
    cases stack with
    | cons f s => exact Bool.noConfusion hs
    | nil =>
      simp only [scalarOnly, Bool.and_eq_true, Bool.not_eq_true'] at hs
      rcases lexMid_spec l c l' toks hl hs.1 hs.2 with
        ⟨rfl, hst, hsc⟩ | ⟨v, rfl, hv, _⟩ | ⟨v, t1, rfl, hv, _⟩
      · simp only [feed_nil, Option.some.injEq] at hf
        subst hf
        simp [scalarOnly, hst, hsc]
      · obtain ⟨_, rfl⟩ := feed_value_scalar v [] p' hf
        simp [scalarOnly, hv]
      · obtain ⟨_, rfl⟩ := feed_value_scalar v t1 p' hf
        simp [scalarOnly, hv]
  | _ => exact Bool.noConfusion hs

theorem scalarOnly_foldlM (text : JSString) (st st' : LexState × PState)
    (h : text.foldlM jsonStep st = some st') (hs : scalarOnly st = true) :
    scalarOnly st' = true := by
  induction text generalizing st with
  | nil =>
    simp only [List.foldlM, pure, Option.some.injEq] at h
    subst h; exact hs
  | cons c rest ih =>
    simp only [List.foldlM_cons] at h
    cases hj : jsonStep st c with
    | none => rw [hj] at h; simp at h
    | some s1 =>
      rw [hj] at h
      exact ih s1 h (scalarOnly_step st s1 c hj hs)

theorem jsonEnd_eq (st : LexState × PState) (v : JSValue) (h : jsonEnd st = some v) :
    ∃ toks, lexEnd st.1 = some toks ∧ feed st.2 toks = some (.done v) := by
  simp only [jsonEnd] at h
  cases hl : lexEnd st.1 with
  | none => rw [hl] at h; exact Option.noConfusion h
  | some toks =>
    rw [hl] at h
    simp only at h
    cases hf : feed st.2 toks with
    | none => rw [hf] at h; exact Option.noConfusion h
    | some p =>
      rw [hf] at h
      cases p <;> simp only [Option.some.injEq] at h <;>
        first
        | exact Option.noConfusion h
        | (subst h; exact ⟨toks, rfl, hf⟩)

theorem lexEnd_spec (l : LexState) (toks : List Token) (h : lexEnd l = some toks) :
    (l = .start ∧ toks = []) ∨ (∃ n, toks = [.scalar (.num n)]) := by
  cases l with
  | start =>
    simp only [lexEnd, Option.some.injEq] at h
    exact Or.inl ⟨rfl, h.symm⟩
  | num phase a =>
    cases phase <;> simp only [lexEnd, Option.some.injEq] at h <;>
      first
      | exact Option.noConfusion h
      | exact Or.inr ⟨_, h.symm⟩
  | _ => simp only [lexEnd] at h; exact Option.noConfusion h

theorem scalarOnly_end (st : LexState × PState) (v : JSValue)
    (h : jsonEnd st = some v) (hs : scalarOnly st = true) : kindOf v = none := by
  obtain ⟨toks, hl, hf⟩ := jsonEnd_eq st v h
  obtain ⟨l, p⟩ := st
  simp only at hl hf
  cases p with
  | done w =>
    obtain ⟨_, hw⟩ := feed_of_done w toks _ hf
    simp only [PState.done.injEq] at hw
    subst hw
    simpa [scalarOnly] using hs
  | value stack =>
    cases stack with
    | cons f s => exact Bool.noConfusion hs
    | nil =>
      rcases lexEnd_spec l toks hl with ⟨rfl, _⟩ | ⟨n, rfl⟩
      · simp [scalarOnly, isStart] at hs
      · obtain ⟨_, hw⟩ := feed_value_scalar _ [] _ hf
        simp only [PState.done.injEq] at hw
        subst hw
        rfl
  | _ => exact Bool.noConfusion hs

/-! ### Texts that are one object or one array -/

theorem lexStart_ws (c : Nat) (h : isJsonWs c = true) : lexStart c = some (.start, []) := by
  unfold lexStart
  rw [if_pos h]

theorem jsonStep_ws (p : PState) (c : Nat) (h : isJsonWs c = true) :
    jsonStep (.start, p) c = some (.start, p) := by
  simp only [jsonStep, lexStep, lexStart_ws c h, feed_nil]

theorem foldlM_skip_ws (ws rest : JSString) (p : PState)
    (h : ∀ c ∈ ws, isJsonWs c = true) :
    (ws ++ rest).foldlM jsonStep (.start, p) = rest.foldlM jsonStep (.start, p) := by
  induction ws with
  | nil => rfl
  | cons a l ih =>
    rw [List.cons_append, List.foldlM_cons, jsonStep_ws p a (h a (List.mem_cons_self _ _))]
    exact ih (fun c hc => h c (List.mem_cons_of_mem _ hc))

theorem JSONparse_skip_ws (ws rest : JSString) (h : ∀ c ∈ ws, isJsonWs c = true) :
    JSONparse (ws ++ rest) = JSONparse rest := by
  unfold JSONparse
  rw [foldlM_skip_ws ws rest _ h]

theorem JSONparse_scalar (c : Nat) (rest : JSString) (v : JSValue)
    (h : JSONparse (c :: rest) = some v) (hw : isJsonWs c = false)
    (h1 : c ≠ 123) (h2 : c ≠ 91) : kindOf v = none := by
  simp only [JSONparse, List.foldlM_cons] at h
  cases hj : jsonStep (.start, .value []) c with
  | none => rw [hj] at h; simp at h
  | some s1 =>
    rw [hj] at h
    simp only [Option.bind_eq_bind, Option.some_bind] at h
    cases hf : List.foldlM jsonStep s1 rest with
    | none => rw [hf] at h; exact Option.noConfusion h
    | some st =>
      rw [hf] at h
      exact scalarOnly_end st v h
        (scalarOnly_foldlM rest s1 st hf (scalarOnly_start c s1 hj hw h1 h2))

/-- A text that parses to an object or an array is white space and then the
opening brace or bracket of that value. -/
theorem JSONparse_container_head (text : JSString) (v : JSValue) (k : Bool)
    (h : JSONparse text = some v) (hk : kindOf v = some k) :
    ∃ ws rest, text = ws ++ (if k then 123 else 91) :: rest ∧
      (∀ c ∈ ws, isJsonWs c = true) ∧
      JSONparse ((if k then 123 else 91) :: rest) = some v := by
  have hsplit := List.takeWhile_append_dropWhile isJsonWs text
  have hws : ∀ c ∈ text.takeWhile isJsonWs, isJsonWs c = true :=
    fun c hc => List.mem_takeWhile_imp hc
  have hparse : JSONparse (text.dropWhile isJsonWs) = some v := by
    rw [← JSONparse_skip_ws _ _ hws, hsplit]; exact h
  cases hd : text.dropWhile isJsonWs with
  | nil => rw [hd] at hparse; exact Option.noConfusion hparse
  | cons c rest =>
    rw [hd] at hparse hsplit
    have hc : isJsonWs c = false := by
      have := List.head_dropWhile_not isJsonWs text (by rw [hd]; simp)
      simpa [hd] using this
    by_cases h1 : c = 123
    · subst h1
      have := (JSONparse_kind 123 rest v hparse).1 rfl
      rw [hk] at this
      simp only [Option.some.injEq] at this
      subst this
      exact ⟨_, rest, hsplit.symm, hws, hparse⟩
    · by_cases h2 : c = 91
      · subst h2
        have := (JSONparse_kind 91 rest v hparse).2 rfl
        rw [hk] at this
        simp only [Option.some.injEq] at this
        subst this
        exact ⟨_, rest, hsplit.symm, hws, hparse⟩
      · have := JSONparse_scalar c rest v hparse hc h1 h2
        rw [hk] at this
        exact Option.noConfusion this

theorem start_to_done (c : Nat) (t1 : List Token) (p : PState) (v : JSValue) (k : Bool)
    (hl : lexStart c = some (.start, t1)) (hf : feed p t1 = some (.done v))
    (hk : kindOf v = some k) :
    (t1 = [] ∧ p = .done v ∧ isJsonWs c = true) ∨ (k = true ∧ c = 125) ∨
      (k = false ∧ c = 93) := by
  have close : ∀ t : Token, (∀ w, t ≠ .scalar w) → pstep p t = some (.done v) →
      (t = .rbrace ∧ k = true) ∨ (t = .rbracket ∧ k = false) := by
    intro t ht hp
    rcases pstep_done p t v hp with ⟨_, h⟩ | ⟨h, hv⟩ | ⟨h, hv⟩
    · exact absurd h (ht v)
    · rw [hk] at hv
      simp only [Option.some.injEq] at hv
      exact Or.inl ⟨h, hv⟩
    · rw [hk] at hv
      simp only [Option.some.injEq] at hv
      exact Or.inr ⟨h, hv⟩
  rcases lexStart_spec c .start t1 hl with ⟨rfl, _, hws⟩ | ⟨_, _, hc⟩ | ⟨_, hst, _⟩
  · simp only [feed_nil, Option.some.injEq] at hf
    exact Or.inl ⟨rfl, hf, hws⟩
  · rcases hc with ⟨_, rfl⟩ | ⟨hc, rfl⟩ | ⟨_, rfl⟩ | ⟨hc, rfl⟩ | ⟨_, rfl⟩ | ⟨_, rfl⟩ <;>
      rw [feed_single] at hf <;>
      rcases close _ (fun w hw => Token.noConfusion hw) hf with ⟨ht, hkk⟩ | ⟨ht, hkk⟩ <;>
      first
      | exact Token.noConfusion ht
      | exact Or.inr (Or.inl ⟨hkk, hc⟩)
      | exact Or.inr (Or.inr ⟨hkk, hc⟩)
  · exact Bool.noConfusion hst

/-- The step that leaves the parser with a completed object or array, between
tokens: it reads white space after that value, or the closing brace or bracket
of the value. -/
theorem jsonStep_to_done (l0 : LexState) (p0 : PState) (c : Nat) (v : JSValue) (k : Bool)
    (h : jsonStep (l0, p0) c = some (.start, .done v)) (hk : kindOf v = some k)
    (hsc : lexScalar l0 = true) :
    (l0 = .start ∧ p0 = .done v ∧ isJsonWs c = true) ∨ (k = true ∧ c = 125) ∨
      (k = false ∧ c = 93) := by
  obtain ⟨toks, hl, hf⟩ := jsonStep_eq _ _ _ _ h
  simp only at hl hf
  have noScalar : ∀ w, kindOf w = none → pstep p0 (.scalar w) ≠ some (.done v) := by
    intro w hw hp
    rcases pstep_done p0 _ v hp with ⟨_, h1⟩ | ⟨h1, _⟩ | ⟨h1, _⟩
    · simp only [Token.scalar.injEq] at h1
      subst h1
      rw [hk] at hw
      exact Option.noConfusion hw
    · exact Token.noConfusion h1
    · exact Token.noConfusion h1
  cases hs : isStart l0 with
  | true =>
    cases l0 <;> simp only [isStart] at hs <;> try exact Bool.noConfusion hs
    rcases start_to_done c toks p0 v k hl hf hk with ⟨_, h1, h2⟩ | h1
    · exact Or.inl ⟨rfl, h1, h2⟩
    · exact Or.inr h1
  | false =>
    rcases lexMid_spec l0 c .start toks hl hs hsc with
      ⟨_, hst, _⟩ | ⟨w, rfl, hw, _⟩ | ⟨w, t1, rfl, hw, h1⟩
    · exact Bool.noConfusion hst
    · rw [feed_single] at hf
      exact absurd hf (noScalar w hw)
    · rw [feed_cons] at hf
      cases hp : pstep p0 (.scalar w) with
      | none => rw [hp] at hf; exact Option.noConfusion hf
      | some p1 =>
        rw [hp] at hf
        simp only [Option.some_bind] at hf
        rcases start_to_done c t1 p1 v k h1 hf hk with ⟨_, h2, _⟩ | h2
        · rw [h2] at hp
          exact absurd hp (noScalar w hw)
        · exact Or.inr h2

theorem lexScalar_foldlM (text : JSString) (st st' : LexState × PState)
    (h : text.foldlM jsonStep st = some st') (hs : lexScalar st.1 = true) :
    lexScalar st'.1 = true := by
  induction text generalizing st with
  | nil =>
    simp only [List.foldlM, pure, Option.some.injEq] at h
    subst h; exact hs
  | cons c rest ih =>
    simp only [List.foldlM_cons] at h
    cases hj : jsonStep st c with
    | none => rw [hj] at h; simp at h
    | some s1 =>
      rw [hj] at h
      obtain ⟨l, p⟩ := st
      obtain ⟨toks, hl, _⟩ := jsonStep_eq l p c s1 hj
      exact ih s1 h (lexStep_lexScalar l c s1.1 toks hl hs)

theorem foldlM_snoc (text : JSString) (a : Nat) (s0 st : LexState × PState)
    (h : (text ++ [a]).foldlM jsonStep s0 = some st) :
    ∃ st0, text.foldlM jsonStep s0 = some st0 ∧ jsonStep st0 a = some st := by
  rw [List.foldlM_append] at h
  cases hl : List.foldlM jsonStep s0 text with
  | none => rw [hl] at h; exact Option.noConfusion h
  | some st0 =>
    rw [hl] at h
    simp only [Option.bind_eq_bind, Option.some_bind, List.foldlM_cons, List.foldlM_nil] at h
    refine ⟨st0, rfl, ?_⟩
    cases hj : jsonStep st0 a with
    | none => rw [hj] at h; exact Option.noConfusion h
    | some s1 => rw [hj] at h; exact h

/-- A text that leaves the parser with a completed object or array, between
tokens, is some text that ends with the closing brace or bracket and leaves
the parser in that same state, and then white space. -/
theorem foldlM_to_done (text : JSString) (s0 : LexState × PState) (v : JSValue) (k : Bool)
    (hk : kindOf v = some k) (hsc : lexScalar s0.1 = true)
    (h : text.foldlM jsonStep s0 = some (.start, .done v)) :
    (s0 = (.start, .done v) ∧ ∀ c ∈ text, isJsonWs c = true) ∨
    ∃ X ws, text = X ++ (if k then 125 else 93) :: ws ∧ (∀ c ∈ ws, isJsonWs c = true) ∧
      (X ++ [if k then 125 else 93]).foldlM jsonStep s0 = some (.start, .done v) := by
  induction text using List.reverseRecOn with
  | nil =>
    simp only [List.foldlM, pure, Option.some.injEq] at h
    exact Or.inl ⟨h, fun c hc => absurd hc (List.not_mem_nil c)⟩
  | append_singleton l a ih =>
    obtain ⟨st0, hl, hj⟩ := foldlM_snoc l a s0 _ h
    obtain ⟨l0, p0⟩ := st0
    have hsc0 := lexScalar_foldlM l s0 _ hl hsc
    rcases jsonStep_to_done l0 p0 a v k hj hk hsc0 with ⟨rfl, rfl, hws⟩ | ⟨rfl, rfl⟩ | ⟨rfl, rfl⟩
    · rcases ih hl with ⟨hs0, hall⟩ | ⟨X, ws, hX, hws2, hfold⟩
      · refine Or.inl ⟨hs0, ?_⟩
        intro c hc
        rcases List.mem_append.1 hc with hc | hc
        · exact hall c hc
        · simp only [List.mem_singleton] at hc
          rw [hc]; exact hws
      · refine Or.inr ⟨X, ws ++ [a], ?_, ?_, hfold⟩
        · rw [hX]; simp
        · intro c hc
          rcases List.mem_append.1 hc with hc | hc
          · exact hws2 c hc
          · simp only [List.mem_singleton] at hc
            rw [hc]; exact hws
    · exact Or.inr ⟨l, [], rfl, fun c hc => absurd hc (List.not_mem_nil c), h⟩
    · exact Or.inr ⟨l, [], rfl, fun c hc => absurd hc (List.not_mem_nil c), h⟩

theorem jsonEnd_container (st : LexState × PState) (v : JSValue) (k : Bool)
    (h : jsonEnd st = some v) (hk : kindOf v = some k) : st = (.start, .done v) := by
  obtain ⟨toks, hl, hf⟩ := jsonEnd_eq st v h
  obtain ⟨l, p⟩ := st
  simp only at hl hf
  rcases lexEnd_spec l toks hl with ⟨rfl, rfl⟩ | ⟨n, rfl⟩
  · simp only [feed_nil, Option.some.injEq] at hf
    rw [hf]
  · rw [feed_single] at hf
    rcases pstep_done p _ v hf with ⟨_, h1⟩ | ⟨h1, _⟩ | ⟨h1, _⟩
    · simp only [Token.scalar.injEq] at h1
      subst h1
      exact Option.noConfusion hk
    · exact Token.noConfusion h1
    · exact Token.noConfusion h1

/-- A text that parses to an object or an array is some text that ends with
the closing brace or bracket and parses to the same value, and then white
space. -/
theorem JSONparse_container_last (text : JSString) (v : JSValue) (k : Bool)
    (h : JSONparse text = some v) (hk : kindOf v = some k) :
    ∃ X ws, text = X ++ (if k then 125 else 93) :: ws ∧ (∀ c ∈ ws, isJsonWs c = true) ∧
      JSONparse (X ++ [if k then 125 else 93]) = some v := by
  unfold JSONparse at h
  cases hf : List.foldlM jsonStep (.start, .value []) text with
  | none => rw [hf] at h; exact Option.noConfusion h
  | some st =>
    rw [hf] at h
    simp only at h
    have hst := jsonEnd_container st v k h hk
    rw [hst] at hf
    rcases foldlM_to_done text (.start, .value []) v k hk rfl hf with ⟨h0, _⟩ | ⟨X, ws, hX, hws, hfold⟩
    · simp only [Prod.mk.injEq] at h0
      exact PState.noConfusion h0.2
    · refine ⟨X, ws, hX, hws, ?_⟩
      unfold JSONparse
      rw [hfold]
      rfl

theorem split_align (ws1 rest X ws2 : JSString) (c d : Nat)
    (h : ws1 ++ c :: rest = X ++ d :: ws2) (hws : ∀ x ∈ ws1, isJsonWs x = true)
    (hd : isJsonWs d = false) (hcd : c ≠ d) : ∃ body, X = ws1 ++ c :: body := by
  induction ws1 generalizing X with
  | nil =>
    cases X with
    | nil =>
      simp only [List.nil_append, List.cons.injEq] at h
      exact absurd h.1 hcd
    | cons x X1 =>
      simp only [List.nil_append, List.cons_append, List.cons.injEq] at h
      exact ⟨X1, by rw [h.1]; rfl⟩
  | cons w ws ih =>
    cases X with
    | nil =>
      simp only [List.nil_append, List.cons_append, List.cons.injEq] at h
      have := hws w (List.mem_cons_self _ _)
      rw [h.1, hd] at this
      exact Bool.noConfusion this
    | cons x X1 =>
      simp only [List.cons_append, List.cons.injEq] at h
      obtain ⟨body, hb⟩ := ih X1 h.2 (fun y hy => hws y (List.mem_cons_of_mem _ hy))
      exact ⟨body, by rw [h.1, hb]; rfl⟩

/-- A text that parses to an object or an array is that value's text, from its
opening brace or bracket to its closing one, between white space. -/
theorem JSONparse_container_shape (text : JSString) (v : JSValue) (k : Bool)
    (h : JSONparse text = some v) (hk : kindOf v = some k) :
    ∃ ws1 body ws2,
      text = ws1 ++ (if k then 123 else 91) :: (body ++ (if k then 125 else 93) :: ws2) ∧
      (∀ c ∈ ws1, isJsonWs c = true) ∧ (∀ c ∈ ws2, isJsonWs c = true) ∧
      JSONparse ((if k then 123 else 91) :: (body ++ [if k then 125 else 93])) = some v := by
  obtain ⟨ws1, rest, h1, hws1, _⟩ := JSONparse_container_head text v k h hk
  obtain ⟨X, ws2, h2, hws2, hX⟩ := JSONparse_container_last text v k h hk
  have hd : isJsonWs (if k then 125 else 93) = false := by cases k <;> rfl
  have hcd : (if k then 123 else 91) ≠ (if k then 125 else 93) := by cases k <;> decide
  obtain ⟨body, hb⟩ := split_align ws1 rest X ws2 _ _ (h1.symm.trans h2) hws1 hd hcd
  refine ⟨ws1, body, ws2, ?_, hws1, hws2, ?_⟩
  · rw [h2, hb]; simp
  · rw [hb, List.append_assoc, JSONparse_skip_ws ws1 _ hws1] at hX
    exact hX

/-! ### The span and the comma repair on a well-formed value -/

theorem matchSpan_brackets (body suf : JSString) (hsuf : ∀ c ∈ suf, c ≠ 93) :
    matchSpan (91 :: (body ++ 93 :: suf)) = some (91 :: (body ++ [93])) := by
  have : spanAt (91 :: (body ++ 93 :: suf)) = some (91 :: upToLast 93 (body ++ 93 :: suf)) := by
    simp [spanAt]
  simp only [matchSpan, this, upToLast_append 93 body suf hsuf]

theorem dropWhile_append_ne (q : Nat → Bool) (l t : JSString) (h : l.dropWhile q ≠ []) :
    (l ++ t).dropWhile q = l.dropWhile q ++ t := by
  induction l with
  | nil => exact absurd rfl h
  | cons a l ih =>
    by_cases ha : q a = true
    · rw [List.cons_append, List.dropWhile_cons_of_pos ha, List.dropWhile_cons_of_pos ha]
      rw [List.dropWhile_cons_of_pos ha] at h
      exact ih h
    · rw [List.cons_append, List.dropWhile_cons_of_neg ha, List.dropWhile_cons_of_neg ha]
      rfl

theorem commaAt_append (s t : JSString) (h : (commaAt s).isSome = true) :
    (commaAt (s ++ t)).isSome = true := by
  cases s with
  | nil => exact Bool.noConfusion h
  | cons c rest =>
    simp only [commaAt, List.cons_append] at h ⊢
    by_cases hc : c = 44
    · rw [if_pos hc] at h ⊢
      cases hd : rest.dropWhile isWhiteSpace with
      | nil => rw [hd] at h; exact Bool.noConfusion h
      | cons d r =>
        rw [hd] at h
        rw [dropWhile_append_ne isWhiteSpace rest t (by rw [hd]; exact List.cons_ne_nil _ _), hd]
        simp only [List.cons_append]
        simp only at h
        by_cases hb : d = 125 ∨ d = 93
        · rw [if_pos hb]; rfl
        · rw [if_neg hb] at h; exact Bool.noConfusion h
    · rw [if_neg hc] at h; exact Bool.noConfusion h

theorem hasRepair_append_left (s t : JSString) (h : hasRepair (s ++ t) = false) :
    hasRepair s = false := by
  induction s with
  | nil => rfl
  | cons c rest ih =>
    rw [List.cons_append] at h
    simp only [hasRepair, Bool.or_eq_false_iff] at h ⊢
    refine ⟨?_, ih h.2⟩
    cases hs : (commaAt (c :: rest)).isSome with
    | false => rfl
    | true =>
      have := commaAt_append (c :: rest) t hs
      rw [List.cons_append, h.1] at this
      exact Bool.noConfusion this

theorem hasRepair_append_right (u s : JSString) (h : hasRepair (u ++ s) = false) :
    hasRepair s = false := by
  induction u with
  | nil => exact h
  | cons a u ih =>
    rw [List.cons_append] at h
    simp only [hasRepair, Bool.or_eq_false_iff] at h
    exact ih h.2

theorem commaFix_id (s : JSString) (h : hasRepair s = false) :
    replaceGlobal commaAt 0 s = s := by
  induction s with
  | nil => rfl
  | cons c rest ih =>
    simp only [hasRepair, Bool.or_eq_false_iff] at h
    have hnone : commaAt (c :: rest) = none := by
      cases hc : commaAt (c :: rest) with
      | none => rfl
      | some r => rw [hc] at h; exact Bool.noConfusion h.1
    simp only [replaceGlobal, hnone, ih h.2]

/-! ### Prose around a well-formed value -/

theorem isJsonWs_not_bracket (c : Nat) (h : isJsonWs c = true) :
    c ≠ 123 ∧ c ≠ 125 ∧ c ≠ 91 ∧ c ≠ 93 := by
  simp only [isJsonWs, Bool.or_eq_true, beq_iff_eq] at h
  omega

theorem kindOf_of_container (v : JSValue)
    (hv : isPlainObject v = true ∨ isArray v = true) : ∃ k, kindOf v = some k := by
  cases v <;> simp [isPlainObject, isArray] at hv
  · exact ⟨false, rfl⟩
  · exact ⟨true, rfl⟩

theorem parseJSONSafe_fallback (J p s : JSString) (v : JSValue) (k : Bool)
    (hJ : JSONparse J = some v) (hk : kindOf v = some k)
    (hp : ∀ c ∈ p, c ≠ 123 ∧ c ≠ 125 ∧ c ≠ 91 ∧ c ≠ 93)
    (hs : ∀ c ∈ s, c ≠ 123 ∧ c ≠ 125 ∧ c ≠ 91 ∧ c ≠ 93)
    (hrep : hasRepair J = false) (hwhole : JSONparse (p ++ J ++ s) = none) :
    parseJSONSafe (p ++ J ++ s) = v := by
  obtain ⟨ws1, body, ws2, hshape, hws1, hws2, hM⟩ := JSONparse_container_shape J v k hJ hk
  have hJ2 : J = ws1 ++ (((if k then 123 else 91) :: (body ++ [if k then 125 else 93])) ++ ws2) := by
    rw [hshape]; simp
  have hrepM : hasRepair ((if k then 123 else 91) :: (body ++ [if k then 125 else 93])) = false := by
    rw [hJ2] at hrep
    exact hasRepair_append_left _ ws2 (hasRepair_append_right ws1 _ hrep)
  have hw : p ++ J ++ s =
      (p ++ ws1) ++ ((if k then 123 else 91) :: (body ++ (if k then 125 else 93) :: (ws2 ++ s))) := by
    rw [hshape]; simp
  have hskip : ∀ c ∈ p ++ ws1, c ≠ 123 ∧ c ≠ 91 := by
    intro c hc
    rcases List.mem_append.1 hc with hc | hc
    · exact ⟨(hp c hc).1, (hp c hc).2.2.1⟩
    · have := isJsonWs_not_bracket c (hws1 c hc)
      exact ⟨this.1, this.2.2.1⟩
  have htail : ∀ c ∈ ws2 ++ s, c ≠ 125 ∧ c ≠ 93 := by
    intro c hc
    rcases List.mem_append.1 hc with hc | hc
    · have := isJsonWs_not_bracket c (hws2 c hc)
      exact ⟨this.2.1, this.2.2.2⟩
    · exact ⟨(hs c hc).2.1, (hs c hc).2.2.2⟩
  have hspan : matchSpan (p ++ J ++ s) =
      some ((if k then 123 else 91) :: (body ++ [if k then 125 else 93])) := by
    rw [hw, matchSpan_skip _ _ hskip]
    cases k with
    | true => exact matchSpan_braces body (ws2 ++ s) (fun c hc => (htail c hc).1)
    | false => exact matchSpan_brackets body (ws2 ++ s) (fun c hc => (htail c hc).2)
  have hne : p ++ J ++ s ≠ [] := by
    rw [hw]; simp
  unfold parseJSONSafe
  rw [if_neg hne, hwhole]
  simp only [hspan, commaFix_id _ hrepM, hM]

theorem done_stays (text : JSString) (l : LexState) (v : JSValue) (st : LexState × PState)
    (h : text.foldlM jsonStep (l, .done v) = some st) : st.2 = .done v := by
  induction text generalizing l with
  | nil =>
    simp only [List.foldlM, pure, Option.some.injEq] at h
    subst h; rfl
  | cons c rest ih =>
    simp only [List.foldlM_cons] at h
    cases hj : jsonStep (l, .done v) c with
    | none => rw [hj] at h; simp at h
    | some s1 =>
      rw [hj] at h
      obtain ⟨toks, _, hf⟩ := jsonStep_eq l _ c s1 hj
      obtain ⟨l1, p1⟩ := s1
      obtain ⟨_, hp1⟩ := feed_of_done v toks _ hf
      simp only at hp1
      subst hp1
      exact ih l1 h

theorem JSONparse_around (J p s : JSString) (v w : JSValue) (k : Bool)
    (hJ : JSONparse J = some v) (hk : kindOf v = some k)
    (hp : ∀ c ∈ p, c ≠ 123 ∧ c ≠ 91) (hw : JSONparse (p ++ J ++ s) = some w) :
    w = v ∨ kindOf w = none := by
  have hsplit := List.takeWhile_append_dropWhile isJsonWs p
  have hws : ∀ c ∈ p.takeWhile isJsonWs, isJsonWs c = true :=
    fun c hc => List.mem_takeWhile_imp hc
  cases hd : p.dropWhile isJsonWs with
  | nil =>
    rw [hd, List.append_nil] at hsplit
    rw [← hsplit, List.append_assoc, JSONparse_skip_ws _ _ hws] at hw
    left
    unfold JSONparse at hJ hw
    cases hf : List.foldlM jsonStep (.start, .value []) J with
    | none => rw [hf] at hJ; exact Option.noConfusion hJ
    | some st =>
      rw [hf] at hJ
      simp only at hJ
      have hst := jsonEnd_container st v k hJ hk
      rw [List.foldlM_append, hf, hst] at hw
      simp only [Option.bind_eq_bind, Option.some_bind] at hw
      cases hf2 : List.foldlM jsonStep (.start, .done v) s with
      | none => rw [hf2] at hw; exact Option.noConfusion hw
      | some st2 =>
        rw [hf2] at hw
        simp only at hw
        have hdone := done_stays s _ v st2 hf2
        obtain ⟨toks, _, hfe⟩ := jsonEnd_eq st2 w hw
        rw [hdone] at hfe
        have := (feed_of_done v toks _ hfe).2
        simp only [PState.done.injEq] at this
        exact this
  | cons c rest =>
    right
    have hc : isJsonWs c = false := by
      have := List.head_dropWhile_not isJsonWs p (by rw [hd]; simp)
      simpa [hd] using this
    have hmem : c ∈ p := by
      rw [← hsplit, hd]
      exact List.mem_append_right _ (List.mem_cons_self _ _)
    rw [hd] at hsplit
    rw [← hsplit, List.append_assoc, List.append_assoc, JSONparse_skip_ws _ _ hws] at hw
    exact JSONparse_scalar c _ w hw hc (hp c hmem).1 (hp c hmem).2

/-- C11 (as amended): for every text `J` that strict-parses to an object or
array `v` and contains no comma followed by white space and a closing brace or
bracket, and every text before and after that contains none of `{`, `}`, `[`,
`]`: when the whole is not valid JSON, `parseJSONSafe` applied to the whole
returns `v`; and when the whole is itself valid JSON, it returns the value of
the whole, which is `v` or a value that is no object and no array (as when the
text before and after are quotation marks). -/
theorem parseJSONSafe_prose (J p s : JSString) (v : JSValue)
    (hJ : JSONparse J = some v) (hv : isPlainObject v = true ∨ isArray v = true)
    (hp : ∀ c ∈ p, c ≠ 123 ∧ c ≠ 125 ∧ c ≠ 91 ∧ c ≠ 93)
    (hs : ∀ c ∈ s, c ≠ 123 ∧ c ≠ 125 ∧ c ≠ 91 ∧ c ≠ 93)
    (hrep : hasRepair J = false) :
    (JSONparse (p ++ J ++ s) = none → parseJSONSafe (p ++ J ++ s) = v) ∧
    (∀ w, JSONparse (p ++ J ++ s) = some w →
      parseJSONSafe (p ++ J ++ s) = w ∧ (w = v ∨ kindOf w = none)) := by
  obtain ⟨k, hk⟩ := kindOf_of_container v hv
  refine ⟨?_, ?_⟩
  · intro hw
    exact parseJSONSafe_fallback J p s v k hJ hk hp hs hrep hw
  · intro w hw
    exact ⟨parseJSONSafe_of_parse _ w hw,
      JSONparse_around J p s v w k hJ hk (fun c hc => ⟨(hp c hc).1, (hp c hc).2.2.1⟩) hw⟩

/-- C11, witness: the object `{"a":[1,2]}` between a sentence before and a
sentence after is recovered as it is; the array `[1]` between two quotation
marks is valid JSON as a whole, and the string of the whole is returned. -/
theorem parseJSONSafe_prose_witness :
    parseJSONSafe (lit "Sure: " ++ lit "\x7b\"a\":[1,2]\x7d" ++ lit " Hope it helps.") =
      .obj [(lit "a", .arr [.num (JSNumber.ofNat 1), .num (JSNumber.ofNat 2)])] ∧
    parseJSONSafe (lit "\"" ++ lit "[1]" ++ lit "\"") = .str (lit "[1]") ∧
    (JSValue.str (lit "[1]") = JSValue.arr [.num (JSNumber.ofNat 1)] ∨
      kindOf (JSValue.str (lit "[1]")) = none) :=
  ⟨(parseJSONSafe_prose (lit "\x7b\"a\":[1,2]\x7d") (lit "Sure: ") (lit " Hope it helps.")
      (.obj [(lit "a", .arr [.num (JSNumber.ofNat 1), .num (JSNumber.ofNat 2)])])
      rfl (Or.inl rfl) (by decide) (by decide) rfl).1 rfl,
    ((parseJSONSafe_prose (lit "[1]") (lit "\"") (lit "\"")
      (.arr [.num (JSNumber.ofNat 1)])
      rfl (Or.inr rfl) (by decide) (by decide) rfl).2 (.str (lit "[1]")) rfl).1,
    ((parseJSONSafe_prose (lit "[1]") (lit "\"") (lit "\"")
      (.arr [.num (JSNumber.ofNat 1)])
      rfl (Or.inr rfl) (by decide) (by decide) rfl).2 (.str (lit "[1]")) rfl).2⟩

/-- C11, counterexample: two texts around which prose changes the recovered
value. The array `[1]` between two quotation marks is valid JSON as a whole, a
string, and that string is returned. The object `{"a":",}"}` after the prose
`x ` goes through the comma repair, which deletes the comma inside its string
literal, and the object returned holds `}` where the text holds `,}`. -/
theorem parseJSONSafe_prose_counterexample :
    (JSONparse (lit "[1]") = some (.arr [.num (JSNumber.ofNat 1)]) ∧
      (∀ c ∈ lit "\"", c ≠ 123 ∧ c ≠ 125 ∧ c ≠ 91 ∧ c ≠ 93) ∧
      parseJSONSafe (lit "\"" ++ lit "[1]" ++ lit "\"") = .str (lit "[1]") ∧
      parseJSONSafe (lit "\"" ++ lit "[1]" ++ lit "\"") ≠ .arr [.num (JSNumber.ofNat 1)]) ∧
    (JSONparse (lit "\x7b\"a\":\",\x7d\"\x7d") = some (.obj [(lit "a", .str (lit ",\x7d"))]) ∧
      (∀ c ∈ lit "x ", c ≠ 123 ∧ c ≠ 125 ∧ c ≠ 91 ∧ c ≠ 93) ∧
      parseJSONSafe (lit "x " ++ lit "\x7b\"a\":\",\x7d\"\x7d" ++ []) =
        .obj [(lit "a", .str (lit "\x7d"))] ∧
      parseJSONSafe (lit "x " ++ lit "\x7b\"a\":\",\x7d\"\x7d" ++ []) ≠
        .obj [(lit "a", .str (lit ",\x7d"))]) := by
  refine ⟨⟨rfl, by decide, rfl, ?_⟩, ⟨rfl, by decide, rfl, ?_⟩⟩
  · intro h
    have h2 : parseJSONSafe (lit "\"" ++ lit "[1]" ++ lit "\"") = .str (lit "[1]") := rfl
    rw [h2] at h
    exact JSValue.noConfusion h
  · intro h
    have h2 : parseJSONSafe (lit "x " ++ lit "\x7b\"a\":\",\x7d\"\x7d" ++ []) =
        .obj [(lit "a", .str (lit "\x7d"))] := rfl
    rw [h2] at h
    simp only [JSValue.obj.injEq, List.cons.injEq, Prod.mk.injEq, JSValue.str.injEq] at h
    exact absurd h.1.2 (by decide)

/-! ### The candidate span -/

/-- C12, at the failing input: in the text
`Here are [some] notes: {"title":"T","summary":"S"}` the strict parse of the
whole fails and the span that is matched, repaired and parsed is `[some]`, so
the result is `null`; yet the text contains the longer span
`{"title":"T","summary":"S"}`, which starts with `{`, ends with `}` and parses
to an object. -/
theorem matchSpan_not_largest :
    JSONparse (lit "Here are [some] notes: \x7b\"title\":\"T\",\"summary\":\"S\"\x7d") = none ∧
    matchSpan (lit "Here are [some] notes: \x7b\"title\":\"T\",\"summary\":\"S\"\x7d") =
      some (lit "[some]") ∧
    parseJSONSafe (lit "Here are [some] notes: \x7b\"title\":\"T\",\"summary\":\"S\"\x7d") =
      .null ∧
    lit "Here are [some] notes: \x7b\"title\":\"T\",\"summary\":\"S\"\x7d" =
      lit "Here are [some] notes: " ++ lit "\x7b\"title\":\"T\",\"summary\":\"S\"\x7d" ∧
    spanShape (lit "\x7b\"title\":\"T\",\"summary\":\"S\"\x7d") = true ∧
    (lit "[some]").length < (lit "\x7b\"title\":\"T\",\"summary\":\"S\"\x7d").length ∧
    JSONparse (lit "\x7b\"title\":\"T\",\"summary\":\"S\"\x7d") =
      some (.obj [(lit "title", .str (lit "T")), (lit "summary", .str (lit "S"))]) := by
  refine ⟨rfl, rfl, rfl, by decide, by decide, by decide, rfl⟩


end Studymate
